import Mathlib

/-!
Verification of the dotfiles-skills tooling pipeline.

The repository consists of three Python scripts:
  * `generate_readme_skills.py` — metadata extraction (`parse_skill_md`),
    catalog rendering (`generate_markdown`) and splicing into two README files;
  * `list_skills.py` — a simplified extractor (`get_skill_info`) plus a
    terminal listing;
  * `update_skills.py` — a per-entry mirror synchronizer.

The code is shallowly embedded here.  Strings are modelled as `List Char`
(`Str`); Python text operations (`strip`, `split`, `readlines`, regular
expression searches used by the scripts) are given as executable Lean
functions translated from the sources.  Python's `str.strip()` whitespace
set is modelled by its ASCII portion (space, tab, newline, carriage return,
vertical tab, form feed); the documents handled by the scripts are UTF-8
text where this is the relevant set.
-/

set_option maxRecDepth 20000
set_option maxHeartbeats 2000000

/-- Strings of the embedded program: lists of characters. -/
abbrev Str := List Char

/-- Coerce a Lean string literal into the model's string type. -/
def str (s : String) : Str := s.data

/-- Python `str.isspace` for the ASCII whitespace characters
(`' '`, `'\t'`, `'\n'`, `'\r'`, `'\x0b'`, `'\x0c'`). -/
def pyWsChar (c : Char) : Bool :=
  c = ' ' || c = '\t' || c = '\n' || c = '\r' || c = Char.ofNat 11 || c = Char.ofNat 12

/-- Drop the longest suffix whose characters satisfy `p`. -/
def dropTrail (p : Char → Bool) (l : Str) : Str :=
  (l.reverse.dropWhile p).reverse

/-- Python `str.strip()`: remove leading and trailing whitespace. -/
def pyStrip (l : Str) : Str :=
  dropTrail pyWsChar (l.dropWhile pyWsChar)

/-- Python `str.strip(cs)`: remove leading and trailing characters from `cs`. -/
def pyStripChars (cs : List Char) (l : Str) : Str :=
  dropTrail (fun c => cs.contains c) (l.dropWhile (fun c => cs.contains c))

/-- Python `val.strip('"\'')` as used on front-matter values. -/
def stripQuotes (l : Str) : Str :=
  pyStripChars ['"', '\''] l

/-- Python `s.split('\n')`. -/
def splitNl : Str → List Str
  | [] => [[]]
  | c :: t =>
    if c = '\n' then [] :: splitNl t
    else
      match splitNl t with
      | [] => [[c]]
      | h :: r => (c :: h) :: r

/-- Python `line.split(':', 1)[1]`: everything after the first colon.
(The scripts only evaluate this on lines that start with `name:` or
`description:`, so a colon is always present.) -/
def afterColon (l : Str) : Str :=
  (l.dropWhile (fun c => c ≠ ':')).drop 1

/-- Python `readlines` with the trailing newlines removed from each line:
split on `'\n'` and drop the final empty piece produced by a trailing
newline (Python's `readlines` never yields a final empty line).  The
scripts never observe the kept `'\n'` of a `readlines` line in a way that
differs from this model: they only apply `strip`, `startswith`,
`split(':',1)[1].strip()` and the test `line and line[0] != ' ' and ':' in
line`, all of which agree on the newline-stripped line. -/
def pyLines (s : Str) : List Str :=
  let ps := splitNl s
  match ps.getLast? with
  | some [] => ps.dropLast
  | _ => ps

/-- Index of the first occurrence of `pat` in `s`, if any. -/
def findOcc (pat : Str) : Str → Option Nat
  | [] => if pat.isPrefixOf ([] : Str) then some 0 else none
  | s@(_ :: rest) =>
    if pat.isPrefixOf s then some 0 else (findOcc pat rest).map (· + 1)

/-- `pat` has no occurrence inside `pre ++ pat` starting strictly before
the final, designated occurrence at index `pre.length`. -/
def noEarlyOcc (pat pre : Str) : Prop :=
  ∀ i < pre.length, ¬ pat <+: (pre ++ pat).drop i

instance (pat pre : Str) : Decidable (noEarlyOcc pat pre) := by
  unfold noEarlyOcc; infer_instance

/-! ## Metadata Extractor: `parse_skill_md` (generate_readme_skills.py) -/

/-- The record produced for one skill document:
`{'name': ..., 'description': ..., 'triggers': [...], 'effect': [...]}`. -/
structure SkillInfo where
  name : Str
  description : Str
  triggers : List Str
  effect : List Str
deriving DecidableEq, Repr

/-- `re.match(r'^---\n(.*?)\n---', content, re.DOTALL)`: if the document
starts with the delimiter line, the lazily matched group is everything up
to the first later occurrence of `"\n---"`. -/
def extractFM (content : Str) : Option Str :=
  if (str "---\n").isPrefixOf content then
    match findOcc (str "\n---") (content.drop 4) with
    | some k => some ((content.drop 4).take k)
    | none => none
  else none

/-- One iteration of the front-matter line loop of `parse_skill_md`:
a `description:` line sets the description (block-scalar markers become
the placeholder `"See details."`, otherwise quotes are stripped), and a
`name:` line sets the name. -/
def fmStep (info : SkillInfo) (line : Str) : SkillInfo :=
  let info1 :=
    if (str "description:").isPrefixOf line then
      let val := pyStrip (afterColon line)
      if val = str "|" ∨ val = str ">" then { info with description := str "See details." }
      else { info with description := stripQuotes val }
    else info
  if (str "name:").isPrefixOf line then
    { info1 with name := pyStrip (afterColon line) }
  else info1

/-- Case-insensitive character comparison (`re.IGNORECASE`). -/
def ciEq (a b : Char) : Bool := a.toLower = b.toLower

/-- Case-insensitive prefix test. -/
def ciPref : Str → Str → Bool
  | [], _ => true
  | _ :: _, [] => false
  | a :: p, b :: l => ciEq a b && ciPref p l

/-- Try the heading alternatives at the current position; return the length
of the matched alternative (the regex alternation tries them in order). -/
def keyAt (keys : List Str) (s : Str) : Option Nat :=
  (keys.find? (fun k => ciPref k s)).map (·.length)

/-- The lazily-matched section body group of
`r'## (Triggers|触发条件).*?\n(.*?)(?=\n## |$)'`: the body runs from just
after the heading line's newline up to the first occurrence of `"\n## "`
or the position where `$` matches (end of string, or just before one final
trailing newline — Python's `$` without `re.MULTILINE`). -/
def sectionBody (t : Str) : Str :=
  let e := if t ≠ [] ∧ t.getLast? = some '\n' then t.length - 1 else t.length
  match findOcc (str "\n## ") t with
  | some j => t.take (min j e)
  | none => t.take e

/-- `re.search` scan for the section pattern: at each position try the
heading alternatives (case-insensitively); on a hit, the heading line must
still contain a newline for `.*?\n` to match, after which the body group
is determined; otherwise continue scanning. -/
def findSec (keys : List Str) : Str → Option Str
  | [] => none
  | s@(_ :: rest) =>
    match keyAt keys s with
    | some k =>
      match findOcc ['\n'] (s.drop k) with
      | some j => some (sectionBody (s.drop (k + j + 1)))
      | none => findSec keys rest
    | none => findSec keys rest

/-- `[line.strip('- ').strip() for line in text.split('\n') if line.strip().startswith('-')]`. -/
def listItems (body : Str) : List Str :=
  ((splitNl body).filter (fun l => (str "-").isPrefixOf (pyStrip l))).map
    (fun l => pyStrip (pyStripChars ['-', ' '] l))

/-- Heading alternatives of the Triggers section. -/
def trigKeys : List Str := [str "## Triggers", str "## 触发条件"]

/-- Heading alternatives of the Effect section. -/
def effKeys : List Str := [str "## Effect", str "## 效果"]

/-- `parse_skill_md`, as a function of the folder name (the `name` default,
`os.path.basename(os.path.dirname(file_path))`) and the document text.
The Lean model is a total function: the Python body performs no raising
operation after the file read succeeds. -/
def parseSkillMd (folder : Str) (content : Str) : SkillInfo :=
  let init : SkillInfo := { name := folder, description := [], triggers := [], effect := [] }
  let afterFM :=
    match extractFM content with
    | some fm => (splitNl fm).foldl fmStep init
    | none => init
  let trig := match findSec trigKeys content with | some b => listItems b | none => []
  let eff := match findSec effKeys content with | some b => listItems b | none => []
  { afterFM with triggers := trig, effect := eff }

/-! ## Simplified extractor: `get_skill_info` (list_skills.py) -/

/-- The record produced by `get_skill_info`: `{'id': ..., 'name': ..., 'description': ...}`. -/
structure GiInfo where
  gid : Str
  name : Str
  description : Str
deriving DecidableEq, Repr

/-- Mutable state of the `get_skill_info` line loop. -/
structure GiSt where
  name : Str
  descr : Str
  descLines : List Str
  reading : Bool
deriving DecidableEq, Repr

/-- The `for line in lines` loop of `get_skill_info`: stop at a `---` line;
while reading a block-scalar description, stop at an unindented `key:`-like
line, otherwise collect the stripped line; a `name:` line sets the name
(quotes stripped); a `description:` line either enters block-scalar mode
(`|` or `>`) or sets a scalar description (quotes stripped). -/
def giLoop : List Str → GiSt → GiSt
  | [], st => st
  | l :: ls, st =>
    if pyStrip l = str "---" then st
    else if st.reading then
      if l ≠ [] ∧ l.head? ≠ some ' ' ∧ ':' ∈ l then st
      else giLoop ls { st with descLines := st.descLines ++ [pyStrip l] }
    else if (str "name:").isPrefixOf l then
      giLoop ls { st with name := stripQuotes (pyStrip (afterColon l)) }
    else if (str "description:").isPrefixOf l then
      let val := pyStrip (afterColon l)
      if val = str "|" ∨ val = str ">" then giLoop ls { st with reading := true }
      else giLoop ls { st with descr := stripQuotes val }
    else giLoop ls st

/-- `get_skill_info` on a document that exists and reads successfully:
drop one leading `---` line if present (the `in_frontmatter` flag the code
sets here is never consulted again), run the line loop, then post-process:
block-scalar continuation lines joined with single spaces override the
scalar description, and an empty name defaults to the folder id. -/
def getSkillInfo (gid : Str) (content : Str) : GiInfo :=
  let ls0 := pyLines content
  let ls :=
    match ls0 with
    | l :: t => if pyStrip l = str "---" then t else ls0
    | [] => ls0
  let st := giLoop ls { name := [], descr := [], descLines := [], reading := false }
  let desc := if st.descLines ≠ [] then List.intercalate (str " ") st.descLines else st.descr
  let nm := if st.name = [] then gid else st.name
  { gid := gid, name := nm, description := desc }

/-- Python `s.split()` (split on whitespace runs, no empty pieces):
auxiliary accumulator form, current token held reversed. -/
def wsSplitAux : Str → Str → List Str
  | [], cur => if cur = [] then [] else [cur.reverse]
  | c :: t, cur =>
    if pyWsChar c then
      if cur = [] then wsSplitAux t [] else cur.reverse :: wsSplitAux t []
    else wsSplitAux t (c :: cur)

/-- Python `s.split()`. -/
def pyWsSplit (s : Str) : List Str := wsSplitAux s []

/-- `' '.join(desc.split())` of the listing utility. -/
def collapseWs (s : Str) : Str := List.intercalate (str " ") (pyWsSplit s)

/-- The description cell printed by `list_skills.py`'s `main`:
collapse whitespace, then truncate to 57 characters plus `"..."` when the
collapsed description exceeds 60 characters. -/
def renderDescCell (d : Str) : Str :=
  let d' := collapseWs d
  if 60 < d'.length then d'.take 57 ++ str "..." else d'

/-! ## Catalog Builder: `generate_markdown` and the README splice -/

/-- The two language variants `generate_markdown` is invoked with. -/
inductive Lang
  | zh
  | en
deriving DecidableEq, Repr

/-- The module-level `CATEGORIES` table of `generate_readme_skills.py`. -/
def CATEGORIES : List (Str × List Str) :=
  [ (str "Frontend Development / 前端开发",
      [str "react-best-practices", str "web-design-guidelines", str "implement-frontend",
       str "design-ui", str "audit-ui", str "ui-animation", str "nextjs", str "react",
       str "tailwind-v4-shadcn", str "tailwind-patterns", str "shadcn", str "tanstack-query",
       str "tanstack-router", str "tanstack-table", str "zustand-state-management",
       str "react-hook-form-zod", str "motion", str "mui", str "ui-ux-pro-max",
       str "vercel-react-native-skills", str "vercel-react-best-practices",
       str "vercel-composition-patterns"]),
    (str "Backend Development / 后端开发",
      [str "go-service-standards", str "express", str "nodejs", str "prisma",
       str "hono-routing", str "python-patterns", str "database-design",
       str "docker-expert", str "database-schema-designer"]),
    (str "Authentication / 身份验证",
      [str "clerk-auth", str "better-auth"]),
    (str "AI & SDK / AI 与 SDK",
      [str "ai-sdk-core", str "ai-sdk-ui"]),
    (str "Superpowers Workflow / Superpowers 工作流",
      [str "using-superpowers", str "brainstorming", str "writing-plans",
       str "executing-plans", str "subagent-driven-development", str "test-driven-development",
       str "systematic-debugging", str "verification-before-completion",
       str "requesting-code-review", str "receiving-code-review", str "using-git-worktrees",
       str "finishing-a-development-branch", str "dispatching-parallel-agents",
       str "writing-skills"]),
    (str "DevTools / 开发工具",
      [str "plan-feature", str "define-architecture", str "review-pr", str "optimise-seo",
       str "developer-toolbox", str "playwright-local", str "webapp-testing",
       str "mcp-builder", str "clean-code", str "code-review-checklist",
       str "performance-profiling", str "git-pushing", str "api-security-best-practices",
       str "typescript-expert", str "github-actions-templates", str "audit-website",
       str "skill-creator"]),
    (str "Documents / 文档处理",
      [str "docx", str "pdf", str "pptx", str "xlsx", str "humanizer",
       str "doc-coauthoring", str "internal-comms"]),
    (str "Creative & Design / 创意与设计",
      [str "canvas-design", str "algorithmic-art", str "theme-factory",
       str "frontend-design", str "brand-guidelines", str "slack-gif-creator",
       str "web-artifacts-builder"]),
    (str "General / 通用",
      [str "chinese-default", str "template-skill"]) ]

/-- All identifiers named by some category of `CATEGORIES`. -/
def allCatIds : List Str := CATEGORIES.bind (·.2)

/-- `title` of `generate_markdown`. -/
def mdTitle : Lang → Str
  | .zh => str "## Skills 概览"
  | .en => str "## Skills Overview"

/-- `headers` of `generate_markdown`. -/
def hdrRow : Lang → Str
  | .zh => str "| Skill | 描述 (Description) | 触发条件 (Triggers) | 效果 (Effect) |"
  | .en => str "| Skill | Description | Triggers | Effect |"

/-- `other` of `generate_markdown`. -/
def otherHd : Lang → Str
  | .zh => str "### Other / 其他"
  | .en => str "### Other"

/-- The `"|---|---|---|---|"` separator line. -/
def sepRow : Str := str "|---|---|---|---|"

/-- `category_key.split(' / ')[0]` for the English variant, the full key
for the Chinese variant. -/
def catName (lang : Lang) (key : Str) : Str :=
  match lang with
  | .zh => key
  | .en =>
    match findOcc (str " / ") key with
    | some k => key.take k
    | none => key

/-- Python `desc.replace('|', '\|')`. -/
def escPipe : Str → Str
  | [] => []
  | c :: t => if c = '|' then '\\' :: '|' :: escPipe t else c :: escPipe t

/-- Python `sep.join(xs)`. -/
def joinSep (sep : Str) : List Str → Str
  | [] => []
  | [x] => x
  | x :: xs@(_ :: _) => x ++ sep ++ joinSep sep xs

/-- `'<br>'.join(xs) if xs else '-'`. -/
def cellOrDash (xs : List Str) : Str :=
  if xs = [] then str "-" else joinSep (str "<br>") xs

/-- One table row of `generate_markdown`. -/
def rowLine (s : SkillInfo) : Str :=
  str "| [`" ++ s.name ++ str "`](./skills/" ++ s.name ++ str "/SKILL.md) | " ++
    escPipe s.description ++ str " | " ++ cellOrDash s.triggers ++ str " | " ++
    cellOrDash s.effect ++ str " |"

/-- `skills_map[n]` lookup (`n in skills_map` / `skills_map[name]`). -/
def lookupSk (skills : List (Str × SkillInfo)) (n : Str) : Option SkillInfo :=
  (skills.find? (fun p => p.1 = n)).map (·.2)

/-- The category loop of `generate_markdown`: for each category collect the
present skills in declared order, add their names to the `processed_skills`
set, and emit a block only when non-empty.  Returns the emitted category
blocks (key and row records) together with the final processed set. -/
def genCats (skills : List (Str × SkillInfo)) :
    List (Str × List Str) → List Str → List (Str × List SkillInfo) × List Str
  | [], pr => ([], pr)
  | (key, ids) :: cats, pr =>
    let catSkills := ids.filterMap (lookupSk skills)
    let pr1 := pr ++ ids.filter (fun n => (lookupSk skills n).isSome)
    let rest := genCats skills cats pr1
    ((if catSkills = [] then [] else [(key, catSkills)]) ++ rest.1, rest.2)

/-- The lines emitted for one non-empty category block:
heading, blank, header row, separator, one row per skill, blank. -/
def renderBlock (lang : Lang) (b : Str × List SkillInfo) : List Str :=
  [str "### " ++ catName lang b.1, []] ++ [hdrRow lang, sepRow] ++ b.2.map rowLine ++ [[]]

/-- All lines of the markdown produced by `generate_markdown`, in order.
Every `md +=` of the Python function appends whole lines, so the produced
string is exactly these lines each followed by `'\n'`. -/
def genLines (skills : List (Str × SkillInfo)) (lang : Lang) : List Str :=
  let bp := genCats skills CATEGORIES []
  let unc := (skills.filter (fun p => decide (p.1 ∉ bp.2))).map (·.2)
  [mdTitle lang, []] ++ (bp.1.map (renderBlock lang)).join ++
    (if unc = [] then []
     else [otherHd lang, [], hdrRow lang, sepRow] ++ unc.map rowLine ++ [[]])

/-- Join lines into a text, each line followed by `'\n'`. -/
def linesJoin (ls : List Str) : Str := (ls.map (· ++ ['\n'])).join

/-- `generate_markdown(skills_map, lang)`. -/
def generateMarkdown (skills : List (Str × SkillInfo)) (lang : Lang) : Str :=
  linesJoin (genLines skills lang)

/-- The start marker of the Chinese splice pattern
`r'(## Skills 概览\n)([\s\S]*?)(?=\n## 目录结构)'`. -/
def sMzh : Str := str "## Skills 概览" ++ ['\n']

/-- The end (lookahead) marker of the Chinese splice pattern. -/
def eMzh : Str := '\n' :: str "## 目录结构"

/-- The start marker of the English splice pattern
`r'(## Skills Overview\n)([\s\S]*?)(?=\n## Directory Structure)'`. -/
def sMen : Str := str "## Skills Overview" ++ ['\n']

/-- The end (lookahead) marker of the English splice pattern. -/
def eMen : Str := '\n' :: str "## Directory Structure"

/-- The replacement text written by `main`: `new_content.strip() + '\n'`.
`re.sub` treats it as a replacement template, so backslashes in it (which
skill descriptions can contain, and which `desc.replace('|', '\|')` itself
inserts) undergo escape processing: see `parseTemplate`, `expandPieces` and
`subAllT` below.  Only when this text is backslash-free is it inserted
literally. -/
def renderedContent (skills : List (Str × SkillInfo)) (lang : Lang) : Str :=
  pyStrip (generateMarkdown skills lang) ++ ['\n']

/-- `re.search` for the splice pattern: some position carries the start
marker followed (anywhere later) by an occurrence of the end marker. -/
def hasMatch (sM eM s : Str) : Bool :=
  (List.range (s.length + 1)).any fun i =>
    sM.isPrefixOf (s.drop i) && (findOcc eM (s.drop (i + sM.length))).isSome

/-- `re.sub` for the splice pattern in the special case of a replacement
text without backslashes, for which `re`'s replacement-template processing
is the identity and the replacement is inserted literally: scan left to
right; at a position carrying the start marker, lazily extend to the first
occurrence of the end marker (which the lookahead does not consume), emit
`M`, and resume scanning at the end-marker position; otherwise keep the
character.  The general form with template processing is `subAllT` below;
`subAllT_lits` connects the two.  (`sM` is never empty at the call sites;
`s'.drop (sM.length - 1)` is `(c :: s').drop sM.length` then.) -/
def subAll (sM eM M : Str) : Str → Str
  | [] => []
  | c :: s' =>
    if sM.isPrefixOf (c :: s') then
      match findOcc eM (s'.drop (sM.length - 1)) with
      | some k => M ++ subAll sM eM M ((s'.drop (sM.length - 1)).drop k)
      | none => c :: subAll sM eM M s'
    else c :: subAll sM eM M s'
termination_by s => s.length
decreasing_by
  · simp only [List.length_cons, List.length_drop]; omega
  · simp only [List.length_cons]; omega
  · simp only [List.length_cons]; omega

/-- One destination document update of `main`: substitute only when
`re.search` found the pattern, otherwise leave the document unchanged
(and the caller prints a non-fatal notice). -/
def updateDoc (sM eM M doc : Str) : Str :=
  if hasMatch sM eM doc then subAll sM eM M doc else doc

/-- The skills map built by `main` from the registry (the sorted list of
skill folders owning a `SKILL.md`, paired with that document's text):
parse each document, then overwrite the record's name with the folder name
(`skills_map[d]['name'] = d`). -/
def buildSkillsMap (reg : List (Str × Str)) : List (Str × SkillInfo) :=
  reg.map fun p => (p.1, { parseSkillMd p.1 p.2 with name := p.1 })

/-- One full Catalog Builder run over the two destination documents, in the
backslash-free special case where both replacement texts are inserted
literally; the faithful general run is `catalogRunT` below. -/
def catalogRun (skills : List (Str × SkillInfo)) (docZh docEn : Str) : Str × Str :=
  (updateDoc sMzh eMzh (renderedContent skills .zh) docZh,
   updateDoc sMen eMen (renderedContent skills .en) docEn)

/-! ### Replacement-template processing of `re.sub`

`re.sub` parses its string replacement as a template (CPython
`re._parser.parse_template`): `\n`, `\t`, … become control characters,
`\1`/`\2`/`\g<k>` become group references, octal escapes are decoded, a
backslash before another ASCII letter raises `re.error` (modelled as
`none`), and a backslash before any other character is kept as the two
characters.  In the splice pattern group 1 is the literal start-marker text
and group 2 is the lazily matched span. -/

/-- A parsed template piece: a literal character or a group reference. -/
inductive TmplPiece where
  | lit : Char → TmplPiece
  | grp : Nat → TmplPiece
deriving DecidableEq, Repr

/-- The character-escape table of replacement templates
(`re._parser.ESCAPES` restricted to its template use). -/
def escChar : Char → Option Char
  | 'a' => some (Char.ofNat 7)
  | 'b' => some (Char.ofNat 8)
  | 'f' => some (Char.ofNat 12)
  | 'n' => some '\n'
  | 'r' => some (Char.ofNat 13)
  | 't' => some (Char.ofNat 9)
  | 'v' => some (Char.ofNat 11)
  | '\\' => some '\\'
  | _ => none

/-- Octal-digit test used by template escapes. -/
def isOctD (c : Char) : Bool := '0' ≤ c && c ≤ '7'

/-- Decimal-digit test used by template group references. -/
def isDigitD (c : Char) : Bool := '0' ≤ c && c ≤ '9'

/-- ASCII-letter test: an unknown escape of an ASCII letter raises. -/
def isAsciiAlpha (c : Char) : Bool :=
  ('a' ≤ c && c ≤ 'z') || ('A' ≤ c && c ≤ 'Z')

/-- Numeric value of a decimal digit character. -/
def digVal (c : Char) : Nat := c.toNat - 48

/-- `re._parser.parse_template` for a pattern with `g` unnamed groups:
`none` is the raised `re.error` / `IndexError`.  Cases, in order: a
backslash at the end is a bad escape; `\g` requires `<digits>` naming a
group `≤ g` (the pattern has no named groups, so any other name errors);
`\0` plus up to two octal digits is an octal escape; `\1`–`\9` followed by
a digit is a three-digit octal escape when all three digits are octal and
a third follows (value `≤ 0o377`), else a (two-)digit group reference that
must be `≤ g`; remaining escaped characters go through the escape table,
escaped ASCII letters error, and anything else keeps the backslash.
This function handles the text after one backslash and returns the emitted
pieces and the remaining text. -/
def parseEscStep (g : Nat) : Str → Option (List TmplPiece × Str)
  | [] => none
  | d :: t2 =>
    if d = 'g' then
      match t2 with
      | '<' :: t3 =>
        if (t3.takeWhile (fun x => x ≠ '>')).length < t3.length then
          if (t3.takeWhile (fun x => x ≠ '>')) = [] then none
          else if (t3.takeWhile (fun x => x ≠ '>')).all (fun x => isDigitD x) then
            if (t3.takeWhile (fun x => x ≠ '>')).foldl
                (fun a x => 10 * a + digVal x) 0 ≤ g then
              some ([TmplPiece.grp ((t3.takeWhile (fun x => x ≠ '>')).foldl
                  (fun a x => 10 * a + digVal x) 0)],
                t3.drop ((t3.takeWhile (fun x => x ≠ '>')).length + 1))
            else none
          else none
        else none
      | _ => none
    else if d = '0' then
      match t2 with
      | d1 :: d2 :: t4 =>
        if isOctD d1 && isOctD d2 then
          some ([TmplPiece.lit (Char.ofNat (8 * digVal d1 + digVal d2))], t4)
        else if isOctD d1 then
          some ([TmplPiece.lit (Char.ofNat (digVal d1))], d2 :: t4)
        else some ([TmplPiece.lit (Char.ofNat 0)], d1 :: d2 :: t4)
      | [d1] =>
        if isOctD d1 then some ([TmplPiece.lit (Char.ofNat (digVal d1))], [])
        else some ([TmplPiece.lit (Char.ofNat 0)], [d1])
      | [] => some ([TmplPiece.lit (Char.ofNat 0)], [])
    else if isDigitD d then
      match t2 with
      | d2 :: t3 =>
        if isDigitD d2 then
          match t3 with
          | d3 :: t4 =>
            if isOctD d && isOctD d2 && isOctD d3 then
              if 64 * digVal d + 8 * digVal d2 + digVal d3 ≤ 255 then
                some ([TmplPiece.lit
                  (Char.ofNat (64 * digVal d + 8 * digVal d2 + digVal d3))], t4)
              else none
            else
              if 10 * digVal d + digVal d2 ≤ g then
                some ([TmplPiece.grp (10 * digVal d + digVal d2)], d3 :: t4)
              else none
          | [] =>
            if 10 * digVal d + digVal d2 ≤ g then
              some ([TmplPiece.grp (10 * digVal d + digVal d2)], [])
            else none
        else
          if digVal d ≤ g then some ([TmplPiece.grp (digVal d)], d2 :: t3)
          else none
      | [] => if digVal d ≤ g then some ([TmplPiece.grp (digVal d)], []) else none
    else
      match escChar d with
      | some e => some ([TmplPiece.lit e], t2)
      | none =>
        if isAsciiAlpha d then none
        else some ([TmplPiece.lit '\\', TmplPiece.lit d], t2)

/-- The template scan: a backslash hands the remaining text to
`parseEscStep` and continues on what that step leaves over; any other
character is literal.  The fuel argument makes the recursion structural;
each step consumes at least the one leading character. -/
def parseTemplateF (g : Nat) : Nat → Str → Option (List TmplPiece)
  | _, [] => some []
  | 0, _ :: _ => none
  | fuel + 1, c :: t =>
    if c = '\\' then
      match parseEscStep g t with
      | none => none
      | some (ps, rest) => (parseTemplateF g fuel rest).map fun qs => ps ++ qs
    else (parseTemplateF g fuel t).map fun ps => TmplPiece.lit c :: ps

/-- `parseTemplateF` at fuel `t.length + 1`: every step of the scan consumes
at least one character, so this fuel is never exhausted and the result is
the template parse itself. -/
def parseTemplate (g : Nat) (t : Str) : Option (List TmplPiece) :=
  parseTemplateF g (t.length + 1) t

/-- Expand parsed template pieces at one match of the splice pattern:
group 1 is the start-marker text `sM`, group 2 the matched span `b`, and
group 0 the whole match. -/
def expandPieces (sM b : Str) (ps : List TmplPiece) : Str :=
  ps.bind fun p =>
    match p with
    | TmplPiece.lit c => [c]
    | TmplPiece.grp 0 => sM ++ b
    | TmplPiece.grp 1 => sM
    | TmplPiece.grp 2 => b
    | TmplPiece.grp _ => []

/-- `re.sub` for the splice pattern with a parsed replacement template:
as `subAll`, but each match emits the template expanded at that match's
groups; the fuel argument makes the recursion structural. -/
def subAllTF (sM eM : Str) (ps : List TmplPiece) : Nat → Str → Str
  | _, [] => []
  | 0, s => s
  | fuel + 1, c :: s' =>
    if sM.isPrefixOf (c :: s') then
      match findOcc eM (s'.drop (sM.length - 1)) with
      | some k =>
          expandPieces sM ((s'.drop (sM.length - 1)).take k) ps ++
            subAllTF sM eM ps fuel ((s'.drop (sM.length - 1)).drop k)
      | none => c :: subAllTF sM eM ps fuel s'
    else c :: subAllTF sM eM ps fuel s'

/-- `subAllTF` at fuel `s.length + 1`: every step consumes at least one
character of `s`, so this fuel is never exhausted. -/
def subAllT (sM eM : Str) (ps : List TmplPiece) (s : Str) : Str :=
  subAllTF sM eM ps (s.length + 1) s

/-- One destination document update of `main`, faithful to `re.sub`:
substitute only when `re.search` found the pattern; the replacement text
is then parsed as a template (the splice pattern has two groups), and a
bad escape in it raises (`none`).  When the search fails the document is
returned unchanged and `re.sub` is never called, so the template is not
parsed. -/
def updateDocT (sM eM tmpl doc : Str) : Option Str :=
  if hasMatch sM eM doc then
    (parseTemplate 2 tmpl).map fun ps => subAllT sM eM ps doc
  else some doc

/-- One full Catalog Builder run over the two destination documents,
faithful to `re.sub`: an exception while updating the Chinese document
propagates out of `main`, so the English document is then not processed. -/
def catalogRunT (skills : List (Str × SkillInfo)) (docZh docEn : Str) :
    Option (Str × Str) :=
  match updateDocT sMzh eMzh (renderedContent skills .zh) docZh with
  | none => none
  | some z => (updateDocT sMen eMen (renderedContent skills .en) docEn).map
      fun e => (z, e)

/-! ## Mirror Synchronizer: `update_skills.py` -/

/-- One `sources.json` entry: `config.get('url')`, `config.get('branch', 'main')`,
`config.get('path', '')`. -/
structure SourceConfig where
  url : Option Str
  branch : Option Str
  path : Option Str
deriving DecidableEq, Repr

/-- The environment of one entry's run: outcomes of the external steps
(the two clone attempts, the subpath check in whichever clone succeeded,
the copy step) and the content that a successful copy installs. -/
structure EntryOutcome where
  branchCloneOk : Bool
  defaultCloneOk : Bool
  branchHasPath : Bool
  defaultHasPath : Bool
  branchContent : Str
  defaultContent : Str
  copyOk : Bool
deriving DecidableEq, Repr

/-- Reported outcome of one attempted entry. -/
inductive EntryStatus
  | updated
  | cloneFailed
  | pathNotFound
deriving DecidableEq, Repr

/-- The registry directory as far as the synchronizer touches it:
an association of skill folder names to their content. -/
abbrev FS := List (Str × Str)

/-- `os.path.exists(target)` / reading the target folder. -/
def fsGet (fs : FS) (k : Str) : Option Str :=
  (fs.find? (fun p => p.1 = k)).map (·.2)

/-- `shutil.rmtree(target)`. -/
def fsErase (fs : FS) (k : Str) : FS :=
  fs.filter (fun p => decide (p.1 ≠ k))

/-- `shutil.copytree(source, target)` after the target was removed. -/
def fsSet (fs : FS) (k : Str) (v : Str) : FS :=
  fs ++ [(k, v)]

/-- The steps of one entry after a successful clone: verify the declared
subpath exists in the retrieved content; only then remove the target if
present and copy.  A failing copy raises: the error carries the disk state
at that moment (the target already removed). -/
def afterClone (fs : FS) (id : Str) (hasPath : Bool) (content : Str) (copyOk : Bool) :
    Except FS (FS × EntryStatus) :=
  if hasPath then
    let fs1 := if (fsGet fs id).isSome then fsErase fs id else fs
    if copyOk then .ok (fsSet fs1 id content, .updated)
    else .error fs1
  else .ok (fs, .pathNotFound)

/-- One entry with a configured URL: clone the declared branch; on failure
fall back once to the default branch; if both fail, report the entry
failed and leave the disk untouched. -/
def processEntry (fs : FS) (id : Str) (o : EntryOutcome) :
    Except FS (FS × EntryStatus) :=
  if o.branchCloneOk then
    afterClone fs id o.branchHasPath o.branchContent o.copyOk
  else if o.defaultCloneOk then
    afterClone fs id o.defaultHasPath o.defaultContent o.copyOk
  else .ok (fs, .cloneFailed)

/-- The `for skill_id, config in sources.items()` loop: entries without a
URL are skipped silently (`continue` before any work); attempted entries
are processed in order; an uncaught exception from the copy step aborts
the loop with the entries logged so far. -/
def runSync (fs : FS) :
    List (Str × SourceConfig × EntryOutcome) →
      Except (FS × List (Str × EntryStatus)) (FS × List (Str × EntryStatus))
  | [] => .ok (fs, [])
  | (id, cfg, o) :: rest =>
    match cfg.url with
    | none => runSync fs rest
    | some _ =>
      match processEntry fs id o with
      | .ok (fs', st) =>
        match runSync fs' rest with
        | .ok (fsF, log) => .ok (fsF, (id, st) :: log)
        | .error (fsF, log) => .error (fsF, (id, st) :: log)
      | .error fs' => .error (fs', [])

/-- Join lines with single `'\n'` separators (no trailing newline):
the shape of a front-matter block between its delimiters. -/
def joinLines : List Str → Str
  | [] => []
  | [l] => l
  | l :: ls@(_ :: _) => l ++ '\n' :: joinLines ls

/-! ## Generic helper lemmas -/

theorem pref_take {p l : Str} (h : p <+: l) : l.take p.length = p := by
  obtain ⟨t, rfl⟩ := h
  exact List.take_left p t

theorem pref_of_take {p l : Str} (h : l.take p.length = p) : p <+: l :=
  ⟨l.drop p.length, by nth_rewrite 1 [← h]; exact List.take_append_drop _ l⟩

theorem pref_append_right {p x : Str} (y : Str) (h : p <+: x) : p <+: x ++ y := by
  obtain ⟨t, rfl⟩ := h
  exact ⟨t ++ y, (List.append_assoc ..).symm⟩

theorem pref_split {p x y : Str} (h : p <+: x ++ y) (hl : p.length ≤ x.length) : p <+: x := by
  apply pref_of_take
  have ht := pref_take h
  rwa [List.take_append_eq_append_take, Nat.sub_eq_zero_of_le hl, List.take_zero,
    List.append_nil] at ht

theorem noEarlyOcc_cons {pat : Str} {x : Char} {pre : Str} (h : noEarlyOcc pat (x :: pre)) :
    noEarlyOcc pat pre := by
  intro i hi
  have := h (i + 1) (by simpa using Nat.succ_lt_succ hi)
  simpa using this

theorem findOcc_none_no_occ {pat s : Str} (h : findOcc pat s = none) :
    ∀ i, ¬ pat <+: s.drop i := by
  induction s with
  | nil =>
    intro i hp
    rw [List.drop_nil] at hp
    simp only [findOcc] at h
    rw [if_pos (List.isPrefixOf_iff_prefix.mpr hp)] at h
    cases h
  | cons c rest ih =>
    intro i hp
    simp only [findOcc] at h
    by_cases hc : pat.isPrefixOf (c :: rest) = true
    · rw [if_pos hc] at h
      cases h
    · rw [if_neg hc] at h
      have hrest : findOcc pat rest = none := by
        cases hr : findOcc pat rest with
        | none => rfl
        | some k => rw [hr] at h; cases h
      cases i with
      | zero =>
        rw [List.drop_zero] at hp
        exact hc (List.isPrefixOf_iff_prefix.mpr hp)
      | succ i =>
        rw [List.drop_succ_cons] at hp
        exact ih hrest i hp


theorem findOcc_cons_self (p0 : Char) (pt c : Str) :
    findOcc (p0 :: pt) ((p0 :: pt) ++ c) = some 0 := by
  rw [List.cons_append]
  simp only [findOcc]
  rw [if_pos]
  exact List.isPrefixOf_iff_prefix.mpr (by rw [← List.cons_append]; exact ⟨c, rfl⟩)

theorem findOcc_at {pat c : Str} (hp : pat ≠ []) :
    ∀ {b : Str}, noEarlyOcc pat b → findOcc pat (b ++ (pat ++ c)) = some b.length := by
  intro b
  induction b with
  | nil =>
    intro _
    rw [List.nil_append]
    obtain ⟨p0, pt, rfl⟩ : ∃ p0 pt, pat = p0 :: pt := by
      cases pat with
      | nil => exact absurd rfl hp
      | cons p0 pt => exact ⟨p0, pt, rfl⟩
    exact findOcc_cons_self p0 pt c
  | cons x b' ih =>
    intro hno
    have hfalse : ¬ pat <+: (x :: b') ++ (pat ++ c) := by
      intro hpref
      have : pat <+: (x :: b') ++ pat := by
        apply pref_split (y := c) _ (by simp only [List.length_append, List.length_cons]; omega)
        rwa [List.append_assoc]
      exact hno 0 (by simp) (by simpa using this)
    rw [List.cons_append]
    simp only [findOcc]
    rw [if_neg (fun hb => hfalse (by rw [List.cons_append]; exact List.isPrefixOf_iff_prefix.mp hb))]
    rw [ih (noEarlyOcc_cons hno)]
    rfl

theorem subAll_nil (sM eM M : Str) : subAll sM eM M [] = [] := by
  rw [subAll]

theorem subAll_cons_pos {sM eM M s : Str} (hne : s ≠ []) (hsM : sM ≠ [])
    (hp : sM <+: s) {k : Nat} (hf : findOcc eM (s.drop sM.length) = some k) :
    subAll sM eM M s = M ++ subAll sM eM M ((s.drop sM.length).drop k) := by
  obtain ⟨c, s', rfl⟩ : ∃ c s', s = c :: s' := by
    cases s with
    | nil => exact absurd rfl hne
    | cons c s' => exact ⟨c, s', rfl⟩
  have hm : sM.length - 1 + 1 = sM.length :=
    Nat.succ_pred_eq_of_pos (List.length_pos.mpr hsM)
  have hdrop : s'.drop (sM.length - 1) = (c :: s').drop sM.length := by
    conv_rhs => rw [← hm]
    rw [List.drop_succ_cons]
  rw [subAll]
  rw [if_pos (List.isPrefixOf_iff_prefix.mpr hp), hdrop, hf]

theorem subAll_cons_neg {sM eM M : Str} {c : Char} {s' : Str} (hp : ¬ sM <+: c :: s') :
    subAll sM eM M (c :: s') = c :: subAll sM eM M s' := by
  rw [subAll]
  rw [if_neg (fun hb => hp (List.isPrefixOf_iff_prefix.mp hb))]

theorem subAll_noMatch {sM eM M : Str} :
    ∀ {s : Str}, (∀ i, ¬ sM <+: s.drop i) → subAll sM eM M s = s := by
  intro s
  induction s with
  | nil => intro _; exact subAll_nil ..
  | cons c s' ih =>
    intro h
    rw [subAll_cons_neg (by simpa using h 0)]
    rw [ih (fun i => by simpa using h (i + 1))]

theorem subAll_structured {sM eM M : Str} (hsM : sM ≠ []) (heM : eM ≠ []) :
    ∀ (a : Str) {b c : Str}, noEarlyOcc sM a → noEarlyOcc eM b →
      (∀ i, ¬ sM <+: (eM ++ c).drop i) →
      subAll sM eM M (a ++ (sM ++ (b ++ (eM ++ c)))) = a ++ (M ++ (eM ++ c)) := by
  intro a
  induction a with
  | nil =>
    intro b c _ h2 h3
    rw [List.nil_append, List.nil_append]
    have hp : sM <+: sM ++ (b ++ (eM ++ c)) := pref_append_right _ (List.prefix_refl _)
    have hne : sM ++ (b ++ (eM ++ c)) ≠ [] := by
      cases sM with
      | nil => exact absurd rfl hsM
      | cons x t => simp
    have hdrop1 : (sM ++ (b ++ (eM ++ c))).drop sM.length = b ++ (eM ++ c) :=
      List.drop_left sM _
    rw [subAll_cons_pos hne hsM hp (k := b.length) (by rw [hdrop1]; exact findOcc_at heM h2)]
    rw [hdrop1, List.drop_left b _]
    rw [subAll_noMatch h3]
  | cons x a' ih =>
    intro b c h1 h2 h3
    have hfalse : ¬ sM <+: (x :: a') ++ (sM ++ (b ++ (eM ++ c))) := by
      intro hpref
      have : sM <+: (x :: a') ++ sM := by
        apply pref_split (y := b ++ (eM ++ c)) _
          (by simp only [List.length_append, List.length_cons]; omega)
        rwa [List.append_assoc]
      exact h1 0 (by simp) (by simpa using this)
    rw [List.cons_append]
    rw [subAll_cons_neg (by rw [← List.cons_append]; exact hfalse)]
    rw [ih (noEarlyOcc_cons h1) h2 h3, List.cons_append]

theorem hasMatch_structured {sM eM : Str} (a b c : Str) :
    hasMatch sM eM (a ++ (sM ++ (b ++ (eM ++ c)))) = true := by
  rw [hasMatch, List.any_eq_true]
  refine ⟨a.length, List.mem_range.mpr ?_, ?_⟩
  · have : a.length ≤ (a ++ (sM ++ (b ++ (eM ++ c)))).length := by simp
    omega
  · rw [Bool.and_eq_true]
    constructor
    · rw [List.drop_left a _]
      exact List.isPrefixOf_iff_prefix.mpr (pref_append_right _ (List.prefix_refl _))
    · rw [← List.drop_drop, List.drop_left a _, List.drop_left sM _]
      cases hf : findOcc eM (b ++ (eM ++ c)) with
      | none =>
        exfalso
        have := findOcc_none_no_occ hf b.length
        rw [List.drop_left b _] at this
        exact this (pref_append_right _ (List.prefix_refl _))
      | some k => rfl

/-! ## Claims about the extractors and the listing utility -/

/-- Claim C10: for every skill printed by the listing utility, the
description cell is at most 60 characters: after collapsing internal
whitespace, any description longer than 60 characters is truncated to its
first 57 characters followed by `"..."` (and otherwise printed whole). -/
theorem c10_desc_cell_truncation (d : Str) :
    (renderDescCell d).length ≤ 60 ∧
    (60 < (collapseWs d).length →
      renderDescCell d = (collapseWs d).take 57 ++ str "...") ∧
    ((collapseWs d).length ≤ 60 → renderDescCell d = collapseWs d) := by
  simp only [renderDescCell]
  by_cases h : 60 < (collapseWs d).length
  · rw [if_pos h]
    refine ⟨?_, fun _ => rfl, fun hle => absurd hle (by omega)⟩
    rw [List.length_append, List.length_take]
    have h3 : (str "...").length = 3 := rfl
    omega
  · rw [if_neg h]
    exact ⟨by omega, fun hgt => absurd hgt h, fun _ => rfl⟩

/-- Concrete instance of `c10_desc_cell_truncation` on a 70-character
description. -/
theorem c10_witness :
    60 < (collapseWs (str "aaaaaaaaaaaaaaaaaaaaaaaaaaaaaaaaaaaaaaaaaaaaaaaaaaaaaaaaaaaaaaaaaaaaaa")).length ∧
    renderDescCell (str "aaaaaaaaaaaaaaaaaaaaaaaaaaaaaaaaaaaaaaaaaaaaaaaaaaaaaaaaaaaaaaaaaaaaaa") =
      (collapseWs (str "aaaaaaaaaaaaaaaaaaaaaaaaaaaaaaaaaaaaaaaaaaaaaaaaaaaaaaaaaaaaaaaaaaaaaa")).take 57 ++ str "..." :=
  ⟨by decide,
   (c10_desc_cell_truncation
     (str "aaaaaaaaaaaaaaaaaaaaaaaaaaaaaaaaaaaaaaaaaaaaaaaaaaaaaaaaaaaaaaaaaaaaaa")).2.1
     (by decide)⟩

/-- Claim C9: `parse_skill_md` is modelled by the total function
`parseSkillMd`, so every raw text yields a `SkillInfo` record; absent
front-matter leaves the default name (the folder) and the empty
description, and an absent Triggers/Effect section leaves the empty
list — malformed input degrades, it never errors. -/
theorem c9_parse_degrades (folder content : Str) :
    (extractFM content = none →
      (parseSkillMd folder content).name = folder ∧
      (parseSkillMd folder content).description = []) ∧
    (findSec trigKeys content = none → (parseSkillMd folder content).triggers = []) ∧
    (findSec effKeys content = none → (parseSkillMd folder content).effect = []) := by
  refine ⟨fun h => ?_, fun h => ?_, fun h => ?_⟩ <;> simp [parseSkillMd, h]

/-- Concrete instance of `c9_parse_degrades` on a document with neither
front-matter nor sections. -/
theorem c9_witness :
    (extractFM (str "hello world") = none ∧
     findSec trigKeys (str "hello world") = none ∧
     findSec effKeys (str "hello world") = none) ∧
    (parseSkillMd (str "fold") (str "hello world")).name = str "fold" ∧
    (parseSkillMd (str "fold") (str "hello world")).description = [] ∧
    (parseSkillMd (str "fold") (str "hello world")).triggers = [] ∧
    (parseSkillMd (str "fold") (str "hello world")).effect = [] :=
  ⟨⟨by decide, by decide, by decide⟩,
   ((c9_parse_degrades (str "fold") (str "hello world")).1 (by decide)).1,
   ((c9_parse_degrades (str "fold") (str "hello world")).1 (by decide)).2,
   (c9_parse_degrades (str "fold") (str "hello world")).2.1 (by decide),
   (c9_parse_degrades (str "fold") (str "hello world")).2.2 (by decide)⟩

/-- Claim C4 (divergence evidence): on the document `"name: sneaky\n"`,
which has no leading front-matter block (it does not start with the
delimiter, under either extractor's notion), `parse_skill_md` correctly
defaults the name to the folder name and the description to empty, but
`get_skill_info` returns the body line's value `"sneaky"` as the name:
its `in_frontmatter` flag is set but never consulted, so `name:` /
`description:` lines are honored even outside any front-matter block. -/
theorem c4_no_frontmatter_divergence :
    extractFM (str "name: sneaky\n") = none ∧
    pyLines (str "name: sneaky\n") = [str "name: sneaky"] ∧
    (parseSkillMd (str "myskill") (str "name: sneaky\n")).name = str "myskill" ∧
    (parseSkillMd (str "myskill") (str "name: sneaky\n")).description = [] ∧
    (getSkillInfo (str "myskill") (str "name: sneaky\n")).name = str "sneaky" ∧
    str "sneaky" ≠ str "myskill" :=
  ⟨by decide, by decide, by decide, by decide, by decide, by decide⟩

/-! ## Claims about the Mirror Synchronizer -/

theorem fsErase_of_none {fs : FS} {id : Str} (h : fsGet fs id = none) :
    fsErase fs id = fs := by
  rw [fsErase, List.filter_eq_self]
  intro p hp
  rw [fsGet, Option.map_eq_none'] at h
  have := List.find?_eq_none.mp h p hp
  simpa using this

theorem fsGet_fsErase (fs : FS) (id : Str) : fsGet (fsErase fs id) id = none := by
  rw [fsGet, Option.map_eq_none', List.find?_eq_none]
  intro p hp
  have := (List.mem_filter.mp hp).2
  simpa using this

theorem fsRm_eq_fsErase (fs : FS) (id : Str) :
    (if (fsGet fs id).isSome then fsErase fs id else fs) = fsErase fs id := by
  cases h : fsGet fs id with
  | none => rw [fsErase_of_none h]; simp
  | some v => simp

theorem afterClone_spec (fs : FS) (id : Str) (hp : Bool) (content : Str) (cp : Bool) :
    (hp = false → afterClone fs id hp content cp = .ok (fs, .pathNotFound)) ∧
    (hp = true → cp = true →
      afterClone fs id hp content cp = .ok (fsSet (fsErase fs id) id content, .updated)) ∧
    (hp = true → cp = false → afterClone fs id hp content cp = .error (fsErase fs id)) := by
  have hrm := fsRm_eq_fsErase fs id
  refine ⟨fun h => ?_, fun h hc => ?_, fun h hc => ?_⟩
  · subst h
    simp [afterClone]
  · subst h
    subst hc
    simp [afterClone, hrm]
  · subst h
    subst hc
    simp [afterClone, hrm]

/-- Claim C2 (amended): removal of the local target folder does not execute
until the declared subpath has been validated to exist in the retrieved
content — every reported (non-raising) outcome other than `updated` leaves
the registry unchanged; a successful entry fully replaces the target; but
if the copy step itself fails, the target folder has already been removed
and is left absent, not in its prior state, and the failure propagates. -/
theorem c2_removal_gated_copy_leaves_absent (fs : FS) (id : Str) (o : EntryOutcome) :
    (∀ fs' st, processEntry fs id o = .ok (fs', st) → st ≠ .updated → fs' = fs) ∧
    (∀ fs' st, processEntry fs id o = .ok (fs', st) → st = .updated →
      fs' = fsSet (fsErase fs id) id
        (if o.branchCloneOk then o.branchContent else o.defaultContent)) ∧
    (∀ fs', processEntry fs id o = .error fs' →
      fs' = fsErase fs id ∧ fsGet fs' id = none) := by
  have hA := afterClone_spec fs id o.branchHasPath o.branchContent o.copyOk
  have hB := afterClone_spec fs id o.defaultHasPath o.defaultContent o.copyOk
  refine ⟨?_, ?_, ?_⟩
  · intro fs' st h hst
    by_cases hb : o.branchCloneOk = true
    · rw [processEntry, if_pos hb] at h
      by_cases hp : o.branchHasPath = true
      · by_cases hc : o.copyOk = true
        · rw [hA.2.1 hp hc] at h
          cases h
          exact absurd rfl hst
        · rw [hA.2.2 hp (by simpa using hc)] at h
          cases h
      · rw [hA.1 (by simpa using hp)] at h
        cases h
        rfl
    · rw [processEntry, if_neg hb] at h
      by_cases hd : o.defaultCloneOk = true
      · rw [if_pos hd] at h
        by_cases hp : o.defaultHasPath = true
        · by_cases hc : o.copyOk = true
          · rw [hB.2.1 hp hc] at h
            cases h
            exact absurd rfl hst
          · rw [hB.2.2 hp (by simpa using hc)] at h
            cases h
        · rw [hB.1 (by simpa using hp)] at h
          cases h
          rfl
      · rw [if_neg hd] at h
        cases h
        rfl
  · intro fs' st h hst
    by_cases hb : o.branchCloneOk = true
    · rw [processEntry, if_pos hb] at h
      rw [if_pos hb]
      by_cases hp : o.branchHasPath = true
      · by_cases hc : o.copyOk = true
        · rw [hA.2.1 hp hc] at h
          cases h
          rfl
        · rw [hA.2.2 hp (by simpa using hc)] at h
          cases h
      · rw [hA.1 (by simpa using hp)] at h
        cases h
        simp at hst
    · rw [processEntry, if_neg hb] at h
      rw [if_neg hb]
      by_cases hd : o.defaultCloneOk = true
      · rw [if_pos hd] at h
        by_cases hp : o.defaultHasPath = true
        · by_cases hc : o.copyOk = true
          · rw [hB.2.1 hp hc] at h
            cases h
            rfl
          · rw [hB.2.2 hp (by simpa using hc)] at h
            cases h
        · rw [hB.1 (by simpa using hp)] at h
          cases h
          simp at hst
      · rw [if_neg hd] at h
        cases h
        simp at hst
  · intro fs' h
    by_cases hb : o.branchCloneOk = true
    · rw [processEntry, if_pos hb] at h
      by_cases hp : o.branchHasPath = true
      · by_cases hc : o.copyOk = true
        · rw [hA.2.1 hp hc] at h
          cases h
        · rw [hA.2.2 hp (by simpa using hc)] at h
          cases h
          exact ⟨rfl, fsGet_fsErase fs id⟩
      · rw [hA.1 (by simpa using hp)] at h
        cases h
    · rw [processEntry, if_neg hb] at h
      by_cases hd : o.defaultCloneOk = true
      · rw [if_pos hd] at h
        by_cases hp : o.defaultHasPath = true
        · by_cases hc : o.copyOk = true
          · rw [hB.2.1 hp hc] at h
            cases h
          · rw [hB.2.2 hp (by simpa using hc)] at h
            cases h
            exact ⟨rfl, fsGet_fsErase fs id⟩
        · rw [hB.1 (by simpa using hp)] at h
          cases h
      · rw [if_neg hd] at h
        cases h

/-- Claim C2 counterexample: an entry whose clone and subpath check succeed
but whose copy step fails.  The prior state holds `"old"` at the target; the
failing run raises with the target already removed (`.error []`), so the
target is neither fully replaced nor left in its prior state — refuting
"fully replaced or left in its prior state if the copy step itself fails". -/
theorem c2_counterexample :
    processEntry [(str "s", str "old")] (str "s")
      { branchCloneOk := true, defaultCloneOk := true, branchHasPath := true,
        defaultHasPath := true, branchContent := str "new",
        defaultContent := str "new", copyOk := false } = .error [] ∧
    fsGet [(str "s", str "old")] (str "s") = some (str "old") ∧
    fsGet ([] : FS) (str "s") = none :=
  ⟨by rfl, by decide, by decide⟩

/-- Concrete instance of `c2_removal_gated_copy_leaves_absent`: a failing
copy on the one-entry registry `[("s", "old")]` leaves the target absent. -/
theorem c2_witness :
    processEntry [(str "s", str "old")] (str "s")
      { branchCloneOk := true, defaultCloneOk := true, branchHasPath := true,
        defaultHasPath := true, branchContent := str "new",
        defaultContent := str "new", copyOk := false } = .error [] ∧
    ([] : FS) = fsErase [(str "s", str "old")] (str "s") ∧
    fsGet ([] : FS) (str "s") = none :=
  ⟨by rfl,
   (c2_removal_gated_copy_leaves_absent [(str "s", str "old")] (str "s")
      { branchCloneOk := true, defaultCloneOk := true, branchHasPath := true,
        defaultHasPath := true, branchContent := str "new",
        defaultContent := str "new", copyOk := false }).2.2 [] (by rfl)⟩

theorem processEntry_ok_of_copyOk {fs : FS} {id : Str} {o : EntryOutcome}
    (hc : o.copyOk = true) : ∃ fs' st, processEntry fs id o = .ok (fs', st) := by
  have hA := afterClone_spec fs id o.branchHasPath o.branchContent o.copyOk
  have hB := afterClone_spec fs id o.defaultHasPath o.defaultContent o.copyOk
  by_cases hb : o.branchCloneOk = true
  · rw [processEntry, if_pos hb]
    by_cases hp : o.branchHasPath = true
    · exact ⟨_, _, hA.2.1 hp hc⟩
    · exact ⟨_, _, hA.1 (by simpa using hp)⟩
  · rw [processEntry, if_neg hb]
    by_cases hd : o.defaultCloneOk = true
    · rw [if_pos hd]
      by_cases hp : o.defaultHasPath = true
      · exact ⟨_, _, hB.2.1 hp hc⟩
      · exact ⟨_, _, hB.1 (by simpa using hp)⟩
    · rw [if_neg hd]
      exact ⟨_, _, rfl⟩

/-- Claim C3: Mirror Synchronizer entries are processed independently with
respect to the per-entry failure kinds the spec names (retrieval failure,
missing subpath): when no copy step fails, the run completes without an
exception and every entry with a configured URL is attempted, in order;
and in the named scenario — first entry's branch retrieval fails but its
default-branch fallback succeeds, second entry's subpath is missing — the
first entry succeeds via the fallback (installing the fallback clone's
content), the second is reported failed, both are attempted, and no
exception propagates. -/
theorem c3_entries_independent :
    (∀ (fs : FS) (items : List (Str × SourceConfig × EntryOutcome)),
      (∀ e ∈ items, e.2.2.copyOk = true) →
      ∃ fsF log, runSync fs items = .ok (fsF, log) ∧
        log.map Prod.fst = (items.filter (fun e => e.2.1.url.isSome)).map Prod.fst) ∧
    (∀ (fs : FS) (id1 id2 u1 u2 : Str) (cfg1 cfg2 : SourceConfig) (o1 o2 : EntryOutcome),
      cfg1.url = some u1 → o1.branchCloneOk = false → o1.defaultCloneOk = true →
      o1.defaultHasPath = true → o1.copyOk = true →
      cfg2.url = some u2 → o2.branchCloneOk = true → o2.branchHasPath = false →
      runSync fs [(id1, cfg1, o1), (id2, cfg2, o2)] =
        .ok (fsSet (fsErase fs id1) id1 o1.defaultContent,
             [(id1, .updated), (id2, .pathNotFound)])) := by
  constructor
  · intro fs items
    induction items generalizing fs with
    | nil =>
      intro _
      exact ⟨fs, [], rfl, rfl⟩
    | cons e rest ih =>
      intro hcp
      obtain ⟨id, cfg, o⟩ := e
      cases hu : cfg.url with
      | none =>
        obtain ⟨fsF, log, hrun, hlog⟩ := ih fs (fun e he => hcp e (List.mem_cons_of_mem _ he))
        refine ⟨fsF, log, ?_, ?_⟩
        · rw [runSync, hu]
          exact hrun
        · rw [hlog, List.filter_cons]
          simp [hu]
      | some u =>
        obtain ⟨fs', st, hpe⟩ :=
          @processEntry_ok_of_copyOk fs id _
            (hcp (id, cfg, o) (List.mem_cons_self _ _))
        obtain ⟨fsF, log, hrun, hlog⟩ := ih fs' (fun e he => hcp e (List.mem_cons_of_mem _ he))
        refine ⟨fsF, (id, st) :: log, ?_, ?_⟩
        · simp only [runSync, hu, hpe, hrun]
        · rw [List.map_cons, hlog, List.filter_cons]
          simp [hu]
  · intro fs id1 id2 u1 u2 cfg1 cfg2 o1 o2 h1u h1b h1d h1p h1c h2u h2b h2p
    have hB := afterClone_spec fs id1 o1.defaultHasPath o1.defaultContent o1.copyOk
    have hpe1 : processEntry fs id1 o1 =
        .ok (fsSet (fsErase fs id1) id1 o1.defaultContent, .updated) := by
      rw [processEntry, if_neg (by simp [h1b]), if_pos h1d]
      exact hB.2.1 h1p h1c
    set fs1 := fsSet (fsErase fs id1) id1 o1.defaultContent with hfs1
    have hA2 := afterClone_spec fs1 id2 o2.branchHasPath o2.branchContent o2.copyOk
    have hpe2 : processEntry fs1 id2 o2 = .ok (fs1, .pathNotFound) := by
      rw [processEntry, if_pos h2b]
      exact hA2.1 h2p
    simp only [runSync, h1u, hpe1, h2u, hpe2]

/-- Concrete instance of `c3_entries_independent`: a two-entry manifest in
which the first entry needs the default-branch fallback and the second
entry's subpath is missing — both entries are attempted, the first is
updated from the fallback content, the second reports `pathNotFound`, and
no exception propagates. -/
theorem c3_witness :
    (∀ e ∈ [((str "a"),
             ({ url := some (str "https://r1"), branch := some (str "dev"), path := some (str "skills/a") } : SourceConfig),
             ({ branchCloneOk := false, defaultCloneOk := true, branchHasPath := false, defaultHasPath := true, branchContent := str "x", defaultContent := str "c1", copyOk := true } : EntryOutcome)),
            ((str "b"),
             ({ url := some (str "https://r2"), branch := none, path := some (str "missing") } : SourceConfig),
             ({ branchCloneOk := true, defaultCloneOk := true, branchHasPath := false, defaultHasPath := true, branchContent := str "y", defaultContent := str "z", copyOk := true } : EntryOutcome))],
        e.2.2.copyOk = true) ∧
    runSync [((str "a"), str "oldA")]
        [((str "a"),
          ({ url := some (str "https://r1"), branch := some (str "dev"), path := some (str "skills/a") } : SourceConfig),
          ({ branchCloneOk := false, defaultCloneOk := true, branchHasPath := false, defaultHasPath := true, branchContent := str "x", defaultContent := str "c1", copyOk := true } : EntryOutcome)),
         ((str "b"),
          ({ url := some (str "https://r2"), branch := none, path := some (str "missing") } : SourceConfig),
          ({ branchCloneOk := true, defaultCloneOk := true, branchHasPath := false, defaultHasPath := true, branchContent := str "y", defaultContent := str "z", copyOk := true } : EntryOutcome))] =
      .ok (fsSet (fsErase [((str "a"), str "oldA")] (str "a")) (str "a") (str "c1"),
           [((str "a"), .updated), ((str "b"), .pathNotFound)]) :=
  ⟨by decide,
   c3_entries_independent.2 [((str "a"), str "oldA")] (str "a") (str "b")
     (str "https://r1") (str "https://r2") _ _ _ _
     (by rfl) (by rfl) (by rfl) (by rfl) (by rfl) (by rfl) (by rfl) (by rfl)⟩

/-! ## Lemmas on line splitting, occurrences and stripping -/

theorem splitNl_ne_nil : ∀ s : Str, splitNl s ≠ [] := by
  intro s
  induction s with
  | nil => simp [splitNl]
  | cons c t ih =>
    rw [splitNl]
    by_cases hc : c = '\n'
    · rw [if_pos hc]; simp
    · rw [if_neg hc]
      cases h : splitNl t with
      | nil => simp
      | cons a r => simp

theorem splitNl_no_nl {x : Str} (h : ('\n' : Char) ∉ x) : splitNl x = [x] := by
  induction x with
  | nil => rfl
  | cons c t ih =>
    have hc : ¬ c = '\n' := fun hc => h (by rw [hc]; exact List.mem_cons_self _ _)
    rw [splitNl, if_neg hc]
    rw [ih (fun hm => h (List.mem_cons_of_mem c hm))]

theorem splitNl_cons {x : Str} (r : Str) (h : ('\n' : Char) ∉ x) :
    splitNl (x ++ '\n' :: r) = x :: splitNl r := by
  induction x with
  | nil => simp [splitNl]
  | cons c t ih =>
    have hc : ¬ c = '\n' := fun hc => h (by rw [hc]; exact List.mem_cons_self _ _)
    rw [List.cons_append, splitNl, if_neg hc]
    rw [ih (fun hm => h (List.mem_cons_of_mem c hm))]

theorem splitNl_joinLines : ∀ {ls : List Str}, ls ≠ [] → (∀ l ∈ ls, ('\n' : Char) ∉ l) →
    splitNl (joinLines ls) = ls := by
  intro ls
  induction ls with
  | nil => intro h _; exact absurd rfl h
  | cons l rest ih =>
    intro _ hnl
    cases rest with
    | nil =>
      simp only [joinLines]
      exact splitNl_no_nl (hnl l (List.mem_cons_self _ _))
    | cons r rs =>
      rw [joinLines, splitNl_cons _ (hnl l (List.mem_cons_self _ _))]
      rw [ih (by simp) (fun a ha => hnl a (List.mem_cons_of_mem _ ha))]

theorem pref_head {c : Char} {t l : Str} (h : (c :: t) <+: l) : l.head? = some c := by
  obtain ⟨w, rfl⟩ := h
  rfl

theorem pref_cases {T a b : Str} (h : T <+: a ++ b) :
    T <+: a ∨ ∃ T', T = a ++ T' ∧ T' <+: b := by
  by_cases hl : T.length ≤ a.length
  · exact Or.inl (pref_split h hl)
  · right
    refine ⟨b.take (T.length - a.length), ?_, List.take_prefix _ b⟩
    have ht := pref_take h
    rw [List.take_append_eq_append_take, List.take_of_length_le (by omega)] at ht
    exact ht.symm

theorem pref_through_nl {p r w : Str} (hnp : ('\n' : Char) ∉ p)
    (h : p <+: r ++ '\n' :: w) : p <+: r := by
  rcases pref_cases h with h' | ⟨p', rfl, hp'⟩
  · exact h'
  · cases p' with
    | nil => exact ⟨[], by simp⟩
    | cons c t =>
      obtain ⟨u, hu⟩ := hp'
      cases hu
      exact absurd (List.mem_append_right r (List.mem_cons_self _ _)) hnp

theorem no_nl_occ {a : Str} {i : Nat} (hnl : ('\n' : Char) ∉ a) (hi : i < a.length)
    (b p : Str) : ¬ ('\n' :: p) <+: (a ++ b).drop i := by
  intro h
  rw [List.drop_append_eq_append_drop, Nat.sub_eq_zero_of_le (Nat.le_of_lt hi),
    List.drop_zero] at h
  rw [List.drop_eq_getElem_cons hi] at h
  obtain ⟨w, hw⟩ := h
  rw [List.cons_append, List.cons_append] at hw
  have : a[i] = '\n' := (List.cons.injEq .. ▸ hw).1.symm
  exact hnl (this ▸ a.getElem_mem hi)

theorem occ_shift {a b q : Str} {i : Nat} (hi : a.length ≤ i)
    (h : q <+: (a ++ b).drop i) : q <+: b.drop (i - a.length) := by
  rwa [List.drop_append_eq_append_drop, List.drop_of_length_le hi, List.nil_append] at h

theorem noEarlyOcc_joinLines {p : Str} (hnp : ('\n' : Char) ∉ p) :
    ∀ {ls : List Str}, (∀ l ∈ ls, ('\n' : Char) ∉ l ∧ ¬ p <+: l) →
      noEarlyOcc ('\n' :: p) (joinLines ls) := by
  intro ls
  induction ls with
  | nil =>
    intro _ i hi
    simp [joinLines] at hi
  | cons l rest ih =>
    intro hls i hi
    have hl := hls l (List.mem_cons_self _ _)
    cases rest with
    | nil =>
      rw [joinLines] at hi ⊢
      exact no_nl_occ hl.1 hi _ _
    | cons r rs =>
      rw [joinLines] at hi ⊢
      rw [List.length_append, List.length_cons] at hi
      by_cases hil : i < l.length
      · rw [List.append_assoc]
        exact no_nl_occ hl.1 hil _ _
      · intro hocc
        rw [List.append_assoc] at hocc
        have hocc' := occ_shift (Nat.le_of_not_lt hil) hocc
        rcases Nat.eq_or_lt_of_le (Nat.le_of_not_lt hil) with heq | hlt
        · rw [← heq, Nat.sub_self, List.drop_zero, List.cons_append] at hocc'
          have hptail : p <+: joinLines (r :: rs) ++ ('\n' :: p) := by
            obtain ⟨w, hw⟩ := hocc'
            exact ⟨w, by exact (List.cons.injEq .. ▸ hw).2⟩
          have hpr : p <+: r := by
            cases rs with
            | nil =>
              rw [joinLines] at hptail
              exact pref_through_nl hnp hptail
            | cons r2 rs2 =>
              rw [joinLines, List.append_assoc] at hptail
              exact pref_through_nl hnp hptail
          exact (hls r (by simp)).2 hpr
        · have h1 : 1 ≤ i - l.length := by omega
          rw [List.cons_append] at hocc'
          have : ('\n' :: p) <+: ((joinLines (r :: rs) ++ ('\n' :: p)).drop (i - l.length - 1)) := by
            rcases Nat.exists_eq_add_of_le h1 with ⟨j, hj⟩
            rw [hj] at hocc'
            rw [Nat.add_comm] at hocc'
            rw [List.drop_succ_cons] at hocc'
            have : i - l.length - 1 = j := by omega
            rw [this]
            exact hocc'
          exact ih (fun a ha => hls a (List.mem_cons_of_mem _ ha)) (i - l.length - 1)
            (by omega) this

theorem extractFM_structured {fm : Str} (rest : Str)
    (h : noEarlyOcc (str "\n---") fm) :
    extractFM (str "---\n" ++ (fm ++ (str "\n---" ++ rest))) = some fm := by
  rw [extractFM]
  rw [if_pos (List.isPrefixOf_iff_prefix.mpr (pref_append_right _ (List.prefix_refl _)))]
  have hd : (str "---\n" ++ (fm ++ (str "\n---" ++ rest))).drop 4 =
      fm ++ (str "\n---" ++ rest) := List.drop_left (str "---\n") _
  rw [hd, findOcc_at (by decide) h]
  simp only [List.take_left]

theorem dropWhile_no_head {p : Char → Bool} {l : Str}
    (h : ∀ c, l.head? = some c → p c = false) : l.dropWhile p = l := by
  cases l with
  | nil => rfl
  | cons c t =>
    rw [List.dropWhile_cons, h c rfl]
    simp

theorem dropTrail_no_last {p : Char → Bool} {l : Str}
    (h : ∀ c, l.getLast? = some c → p c = false) : dropTrail p l = l := by
  rw [dropTrail, dropWhile_no_head, List.reverse_reverse]
  intro c hc
  rw [List.head?_reverse] at hc
  exact h c hc

theorem dropTrail_pref (p : Char → Bool) (l : Str) : dropTrail p l <+: l := by
  refine ⟨(l.reverse.takeWhile p).reverse, ?_⟩
  rw [dropTrail, ← List.reverse_append, List.takeWhile_append_dropWhile, List.reverse_reverse]

theorem pyStrip_cons_shape {c : Char} (X : Str) (hc : pyWsChar c = false) :
    pyStrip (c :: X) = [] ∨ (pyStrip (c :: X)).head? = some c := by
  have h1 : (c :: X).dropWhile pyWsChar = c :: X :=
    dropWhile_no_head (fun d hd => by cases hd; exact hc)
  rw [pyStrip, h1]
  cases he : dropTrail pyWsChar (c :: X) with
  | nil => exact Or.inl rfl
  | cons y ys =>
    right
    obtain ⟨w, hw⟩ := dropTrail_pref pyWsChar (c :: X)
    rw [he, List.cons_append] at hw
    cases hw
    rfl

theorem dropTrail_last_true {p : Char → Bool} {qc : Char} (hqc : p qc = true) (d : Str)
    (hd : ∀ c, d.getLast? = some c → p c = false) : dropTrail p (d ++ [qc]) = d := by
  rw [dropTrail, List.reverse_append]
  have h1 : ([qc].reverse : Str) = [qc] := rfl
  rw [h1, List.cons_append, List.nil_append, List.dropWhile_cons, hqc]
  simp only [if_true]
  rw [dropWhile_no_head (fun c hc => hd c (by rwa [List.head?_reverse] at hc)),
    List.reverse_reverse]

theorem stripQuotes_id {d : Str}
    (h1 : ∀ c, d.head? = some c → c ≠ '"' ∧ c ≠ '\'')
    (h2 : ∀ c, d.getLast? = some c → c ≠ '"' ∧ c ≠ '\'') :
    stripQuotes d = d := by
  rw [stripQuotes, pyStripChars]
  rw [dropWhile_no_head (fun c hc => by simp [(h1 c hc).1, (h1 c hc).2])]
  exact dropTrail_no_last (fun c hc => by simp [(h2 c hc).1, (h2 c hc).2])

theorem stripQuotes_wrapped {qc : Char} {d : Str} (hq : qc = '"' ∨ qc = '\'')
    (h1 : ∀ c, d.head? = some c → c ≠ '"' ∧ c ≠ '\'')
    (h2 : ∀ c, d.getLast? = some c → c ≠ '"' ∧ c ≠ '\'') :
    stripQuotes (qc :: (d ++ [qc])) = d := by
  have hqc : (['"','\''].contains qc) = true := by rcases hq with h | h <;> rw [h] <;> decide
  rw [stripQuotes, pyStripChars, List.dropWhile_cons]
  simp only [hqc, if_true]
  cases d with
  | nil =>
    rw [List.nil_append, List.dropWhile_cons]
    simp only [hqc, if_true]
    rfl
  | cons c t =>
    have hc := h1 c rfl
    have hcf : (['"','\''].contains c) = false := by simp [hc.1, hc.2]
    rw [List.cons_append, List.dropWhile_cons]
    simp only [hcf, Bool.false_eq_true, if_false]
    rw [← List.cons_append]
    exact dropTrail_last_true hqc _ (fun e he => by simp [(h2 e he).1, (h2 e he).2])

theorem pyLines_shape {x : Str} {l₁ ws : List Str} (h : splitNl x = l₁ ++ ws)
    (hws : ws ≠ []) : ∃ zs, pyLines x = l₁ ++ zs := by
  rw [pyLines]
  cases hlast : (splitNl x).getLast? with
  | none =>
    exact absurd (List.getLast?_eq_none_iff.mp hlast) (splitNl_ne_nil x)
  | some l =>
    cases hl : l with
    | nil =>
      refine ⟨ws.dropLast, ?_⟩
      rw [h, List.dropLast_append_of_ne_nil _ hws]
    | cons a b =>
      exact ⟨ws, h⟩

/-! ## Step lemmas for the two front-matter line loops -/

theorem fmStep_desc_of_not {info : SkillInfo} {line : Str}
    (h : (str "description:").isPrefixOf line = false) :
    (fmStep info line).description = info.description := by
  rw [fmStep]
  simp only [h, Bool.false_eq_true, if_false]
  by_cases hn : (str "name:").isPrefixOf line = true <;> simp [hn]

theorem fmStep_desc_scalar {info : SkillInfo} {line : Str}
    (h : (str "description:").isPrefixOf line = true)
    {w : Str} (hw : pyStrip (afterColon line) = w)
    (hb1 : w ≠ str "|") (hb2 : w ≠ str ">") :
    (fmStep info line).description = stripQuotes w := by
  rw [fmStep]
  simp only [h, if_true, hw]
  by_cases hn : (str "name:").isPrefixOf line = true <;>
    simp only [hn, Bool.false_eq_true, if_false, if_true] <;>
    rw [if_neg (by simp [hb1, hb2])]

theorem fmStep_desc_block {info : SkillInfo} {line : Str}
    (h : (str "description:").isPrefixOf line = true)
    {w : Str} (hw : pyStrip (afterColon line) = w)
    (hb : w = str "|" ∨ w = str ">") :
    (fmStep info line).description = str "See details." := by
  rw [fmStep]
  simp only [h, if_true, hw]
  by_cases hn : (str "name:").isPrefixOf line = true <;>
    simp only [hn, Bool.false_eq_true, if_false, if_true] <;>
    rw [if_pos hb]

theorem giLoop_stop {l : Str} (ls : List Str) (st : GiSt) (h0 : pyStrip l = str "---") :
    giLoop (l :: ls) st = st := by
  rw [giLoop, if_pos h0]

theorem giLoop_name {l : Str} (ls : List Str) (st : GiSt)
    (h0 : pyStrip l ≠ str "---") (hr : st.reading = false)
    (hn : (str "name:").isPrefixOf l = true) :
    giLoop (l :: ls) st = giLoop ls { st with name := stripQuotes (pyStrip (afterColon l)) } := by
  rw [giLoop, if_neg h0]
  simp only [hr, Bool.false_eq_true, if_false, hn, if_true]

theorem giLoop_scalar_desc {l : Str} (ls : List Str) (st : GiSt)
    (h0 : pyStrip l ≠ str "---") (hr : st.reading = false)
    (hn : (str "name:").isPrefixOf l = false)
    (hd : (str "description:").isPrefixOf l = true)
    {w : Str} (hw : pyStrip (afterColon l) = w)
    (hb1 : w ≠ str "|") (hb2 : w ≠ str ">") :
    giLoop (l :: ls) st = giLoop ls { st with descr := stripQuotes w } := by
  rw [giLoop, if_neg h0]
  simp only [hr, Bool.false_eq_true, if_false, hn, hd, if_true, hw]
  rw [if_neg (by simp [hb1, hb2])]

theorem giLoop_block_start {l : Str} (ls : List Str) (st : GiSt)
    (h0 : pyStrip l ≠ str "---") (hr : st.reading = false)
    (hn : (str "name:").isPrefixOf l = false)
    (hd : (str "description:").isPrefixOf l = true)
    {w : Str} (hw : pyStrip (afterColon l) = w)
    (hb : w = str "|" ∨ w = str ">") :
    giLoop (l :: ls) st = giLoop ls { st with reading := true } := by
  rw [giLoop, if_neg h0]
  simp only [hr, Bool.false_eq_true, if_false, hn, hd, if_true, hw]
  rw [if_pos hb]

theorem giLoop_reading_collect {l : Str} (ls : List Str) (st : GiSt)
    (h0 : pyStrip l ≠ str "---") (hr : st.reading = true)
    (hsp : l.head? = some ' ') :
    giLoop (l :: ls) st = giLoop ls { st with descLines := st.descLines ++ [pyStrip l] } := by
  rw [giLoop, if_neg h0]
  simp only [hr, if_true]
  rw [if_neg (by intro hcon; rw [hsp] at hcon; exact hcon.2.1 rfl)]

theorem not_pref_of_head_ne {p l : Str} {cp cl : Char}
    (hp : p.head? = some cp) (hl : l.head? = some cl) (hne : cp ≠ cl) : ¬ p <+: l := by
  intro h
  cases p with
  | nil => simp at hp
  | cons c t =>
    have h1 := pref_head h
    rw [hl] at h1
    rw [List.head?_cons] at hp
    cases Option.some.inj hp
    exact hne (Option.some.inj h1).symm

theorem pyLines_of_last_ne_nil {x : Str} {l : Str} (h : (splitNl x).getLast? = some l)
    (hne : l ≠ []) : pyLines x = splitNl x := by
  rw [pyLines]
  cases l with
  | nil => exact absurd rfl hne
  | cons a b => rw [h]

theorem parseSkillMd_desc_of_fm {folder content fm : Str} (h : extractFM content = some fm) :
    (parseSkillMd folder content).description =
      ((splitNl fm).foldl fmStep
        { name := folder, description := [], triggers := [], effect := [] }).description := by
  rw [parseSkillMd]
  simp only [h]

/-- Claim C8: for every document with a well-formed front-matter block and a
single-line scalar description, optionally quote-wrapped, extraction yields
that exact description with the wrapping quotes stripped — in both the
simplified extractor (`parse_skill_md`) and the detailed one
(`get_skill_info`). -/
theorem c8_scalar_description (folder gid n v d rest : Str)
    (hnN : ('\n' : Char) ∉ n) (hnV : ('\n' : Char) ∉ v)
    (hvT : pyStrip v = v)
    (hvb1 : v ≠ str "|") (hvb2 : v ≠ str ">")
    (hwrap : v = d ∨ v = '"' :: (d ++ ['"']) ∨ v = '\'' :: (d ++ ['\'']))
    (hd1 : ∀ c, d.head? = some c → c ≠ '"' ∧ c ≠ '\'')
    (hd2 : ∀ c, d.getLast? = some c → c ≠ '"' ∧ c ≠ '\'')
    (hrest : rest = [] ∨ rest.head? = some '\n') :
    (parseSkillMd folder (str "---\n" ++
      (joinLines [str "name: " ++ n, str "description: " ++ v] ++
        (str "\n---" ++ rest)))).description = d ∧
    (getSkillInfo gid (str "---\n" ++
      (joinLines [str "name: " ++ n, str "description: " ++ v] ++
        (str "\n---" ++ rest)))).description = d := by
  have hjoin : joinLines [str "name: " ++ n, str "description: " ++ v] =
      (str "name: " ++ n) ++ '\n' :: (str "description: " ++ v) := by
    simp only [joinLines]
  have hsq : stripQuotes v = d := by
    rcases hwrap with rfl | hv | hv
    · exact stripQuotes_id hd1 hd2
    · rw [hv]
      exact stripQuotes_wrapped (Or.inl rfl) hd1 hd2
    · rw [hv]
      exact stripQuotes_wrapped (Or.inr rfl) hd1 hd2
  have hnl1 : ('\n' : Char) ∉ str "name: " ++ n := by
    intro hm
    rcases List.mem_append.mp hm with h | h
    · exact absurd h (by decide)
    · exact hnN h
  have hnl2 : ('\n' : Char) ∉ str "description: " ++ v := by
    intro hm
    rcases List.mem_append.mp hm with h | h
    · exact absurd h (by decide)
    · exact hnV h
  have hval : pyStrip (afterColon (str "description: " ++ v)) = v := hvT
  have hstr1 : pyStrip (str "name: " ++ n) ≠ str "---" := by
    have hps1 : pyStrip (str "name: " ++ n) = [] ∨
        (pyStrip (str "name: " ++ n)).head? = some 'n' :=
      pyStrip_cons_shape (str "ame: " ++ n) (by decide : pyWsChar 'n' = false)
    rcases hps1 with he | hh
    · rw [he]
      decide
    · intro heq
      rw [heq] at hh
      exact absurd hh (by decide)
  have hstr2 : pyStrip (str "description: " ++ v) ≠ str "---" := by
    have hps2 : pyStrip (str "description: " ++ v) = [] ∨
        (pyStrip (str "description: " ++ v)).head? = some 'd' :=
      pyStrip_cons_shape (str "escription: " ++ v) (by decide : pyWsChar 'd' = false)
    rcases hps2 with he | hh
    · rw [he]
      decide
    · intro heq
      rw [heq] at hh
      exact absurd hh (by decide)
  constructor
  · -- parse_skill_md
    have hno : noEarlyOcc (str "\n---")
        (joinLines [str "name: " ++ n, str "description: " ++ v]) := by
      have h := @noEarlyOcc_joinLines (str "---") (by decide)
        [str "name: " ++ n, str "description: " ++ v] (by
          intro l hl
          rcases List.mem_cons.mp hl with rfl | hl2
          · exact ⟨hnl1, @not_pref_of_head_ne _ _ '-' 'n' (by decide) rfl (by decide)⟩
          · rcases List.mem_cons.mp hl2 with rfl | h3
            · exact ⟨hnl2, @not_pref_of_head_ne _ _ '-' 'd' (by decide) rfl (by decide)⟩
            · cases h3)
      rw [show ('\n' :: str "---") = str "\n---" from by decide] at h
      exact h
    have hfm := extractFM_structured rest hno
    rw [parseSkillMd_desc_of_fm hfm]
    rw [splitNl_joinLines (by simp) (by
      intro l hl
      rcases List.mem_cons.mp hl with rfl | hl2
      · exact hnl1
      · rcases List.mem_cons.mp hl2 with rfl | h3
        · exact hnl2
        · cases h3)]
    rw [List.foldl_cons, List.foldl_cons, List.foldl_nil]
    rw [@fmStep_desc_scalar _ (str "description: " ++ v) rfl _ hval hvb1 hvb2, hsq]
  · -- get_skill_info
    have hc2 : str "---\n" ++
        (joinLines [str "name: " ++ n, str "description: " ++ v] ++ (str "\n---" ++ rest)) =
        str "---" ++ '\n' :: ((str "name: " ++ n) ++ '\n' ::
          ((str "description: " ++ v) ++ '\n' :: (str "---" ++ rest))) := by
      rw [hjoin]
      simp only [List.append_assoc, List.cons_append]
      rfl
    obtain ⟨zs, hpl⟩ : ∃ zs, pyLines (str "---\n" ++
        (joinLines [str "name: " ++ n, str "description: " ++ v] ++ (str "\n---" ++ rest))) =
        [str "---", str "name: " ++ n, str "description: " ++ v, str "---"] ++ zs := by
      have hs1 : splitNl (str "---\n" ++
          (joinLines [str "name: " ++ n, str "description: " ++ v] ++ (str "\n---" ++ rest))) =
          str "---" :: (str "name: " ++ n) :: (str "description: " ++ v) ::
            splitNl (str "---" ++ rest) := by
        rw [hc2, splitNl_cons _ (by decide), splitNl_cons _ hnl1, splitNl_cons _ hnl2]
      rcases hrest with rfl | hh
      · have hzs : splitNl (str "---\n" ++
            (joinLines [str "name: " ++ n, str "description: " ++ v] ++ (str "\n---" ++ []))) =
            [str "---", str "name: " ++ n, str "description: " ++ v, str "---"] := by
          rw [hs1, List.append_nil, show splitNl (str "---") = [str "---"] from by decide]
        refine ⟨[], ?_⟩
        rw [pyLines_of_last_ne_nil (l := str "---") (by rw [hzs]; rfl) (by decide), hzs,
          List.append_nil]
      · obtain ⟨r', rfl⟩ : ∃ r', rest = '\n' :: r' := by
          cases rest with
          | nil => cases hh
          | cons c t =>
            rw [List.head?_cons] at hh
            cases Option.some.inj hh
            exact ⟨t, rfl⟩
        have hsz : splitNl (str "---\n" ++
            (joinLines [str "name: " ++ n, str "description: " ++ v] ++
              (str "\n---" ++ '\n' :: r'))) =
            [str "---", str "name: " ++ n, str "description: " ++ v, str "---"] ++
              splitNl r' := by
          rw [hs1, splitNl_cons _ (by decide)]
          simp
        exact pyLines_shape hsz (splitNl_ne_nil r')
    rw [getSkillInfo]
    simp only [hpl, List.cons_append, List.nil_append]
    rw [if_pos (by decide : pyStrip (str "---") = str "---")]
    rw [giLoop_name _ _ hstr1 rfl rfl]
    rw [giLoop_scalar_desc _ _ hstr2 rfl rfl rfl hval hvb1 hvb2]
    rw [giLoop_stop _ _ (by decide)]
    simp only [hsq]
    rfl

/-- Concrete instance of `c8_scalar_description`: a quote-wrapped scalar
description `"A desc"` is extracted as `A desc` by both extractors. -/
theorem c8_witness :
    (parseSkillMd (str "f") (str "---\n" ++
      (joinLines [str "name: " ++ str "my-skill", str "description: " ++ str "\"A desc\""] ++
        (str "\n---" ++ str "\nbody")))).description = str "A desc" ∧
    (getSkillInfo (str "g") (str "---\n" ++
      (joinLines [str "name: " ++ str "my-skill", str "description: " ++ str "\"A desc\""] ++
        (str "\n---" ++ str "\nbody")))).description = str "A desc" :=
  c8_scalar_description (str "f") (str "g") (str "my-skill") (str "\"A desc\"") (str "A desc")
    (str "\nbody") (by decide) (by decide) (by decide) (by decide) (by decide)
    (Or.inr (Or.inl (by decide)))
    (by intro c hc; cases hc; decide)
    (by intro c hc; cases hc; decide)
    (Or.inr (by decide))

theorem splitNl_joinLines_append {X : Str} :
    ∀ {ls : List Str}, ls ≠ [] → (∀ l ∈ ls, ('\n' : Char) ∉ l) →
      splitNl (joinLines ls ++ '\n' :: X) = ls ++ splitNl X := by
  intro ls
  induction ls with
  | nil => intro h _; exact absurd rfl h
  | cons l rest ih =>
    intro _ hnl
    cases rest with
    | nil =>
      simp only [joinLines]
      rw [splitNl_cons _ (hnl l (List.mem_cons_self _ _))]
      rfl
    | cons r rs =>
      rw [joinLines, List.append_assoc, List.cons_append,
        splitNl_cons _ (hnl l (List.mem_cons_self _ _))]
      rw [ih (by simp) (fun a ha => hnl a (List.mem_cons_of_mem _ ha))]
      rfl

theorem foldl_fmStep_desc_const :
    ∀ {cs : List Str}, (∀ c ∈ cs, (str "description:").isPrefixOf c = false) →
      ∀ st : SkillInfo, (cs.foldl fmStep st).description = st.description := by
  intro cs
  induction cs with
  | nil => intro _ st; rfl
  | cons c cs' ih =>
    intro h st
    rw [List.foldl_cons, ih (fun a ha => h a (List.mem_cons_of_mem _ ha)),
      fmStep_desc_of_not (h c (List.mem_cons_self _ _))]

theorem giLoop_reading_run {zs : List Str} :
    ∀ {cs : List Str}, (∀ c ∈ cs, c.head? = some ' ' ∧ pyStrip c ≠ str "---") →
      ∀ st : GiSt, st.reading = true →
        giLoop (cs ++ (str "---" :: zs)) st =
          { st with descLines := st.descLines ++ cs.map pyStrip } := by
  intro cs
  induction cs with
  | nil =>
    intro _ st hr
    rw [List.nil_append, giLoop_stop _ _ (by decide), List.map_nil, List.append_nil]
  | cons c cs' ih =>
    intro h st hr
    rw [List.cons_append,
      giLoop_reading_collect _ _ (h c (List.mem_cons_self _ _)).2 hr
        (h c (List.mem_cons_self _ _)).1]
    rw [ih (fun a ha => h a (List.mem_cons_of_mem _ ha))
      { st with descLines := st.descLines ++ [pyStrip c] } hr]
    simp [List.append_assoc]

/-- Claim C5: for every document whose front-matter description value is
exactly a literal (`|`) or folded (`>`) block-scalar marker, the simplified
extraction (`parse_skill_md`) yields the fixed placeholder `"See details."`
while the detailed extraction (`get_skill_info`) yields the continuation
lines trimmed and joined with single spaces. -/
theorem c5_block_scalar_description (folder gid m rest : Str) (cont : List Str)
    (hm : m = str "|" ∨ m = str ">")
    (hcont : ∀ c ∈ cont, c.head? = some ' ' ∧ ('\n' : Char) ∉ c ∧ pyStrip c ≠ str "---")
    (hrest : rest = [] ∨ rest.head? = some '\n') :
    (parseSkillMd folder (str "---\n" ++
      (joinLines ((str "description: " ++ m) :: cont) ++
        (str "\n---" ++ rest)))).description = str "See details." ∧
    (getSkillInfo gid (str "---\n" ++
      (joinLines ((str "description: " ++ m) :: cont) ++
        (str "\n---" ++ rest)))).description =
      List.intercalate (str " ") (cont.map pyStrip) := by
  have hlinesOk : ∀ l ∈ (str "description: " ++ m) :: cont, ('\n' : Char) ∉ l := by
    intro l hl
    rcases List.mem_cons.mp hl with rfl | hl2
    · intro hmem
      rcases List.mem_append.mp hmem with h | h
      · exact absurd h (by decide)
      · rcases hm with rfl | rfl <;> exact absurd h (by decide)
    · exact (hcont l hl2).2.1
  have hnoPref : ∀ l ∈ (str "description: " ++ m) :: cont, ('\n' : Char) ∉ l ∧
      ¬ (str "---") <+: l := by
    intro l hl
    refine ⟨hlinesOk l hl, ?_⟩
    rcases List.mem_cons.mp hl with rfl | hl2
    · exact @not_pref_of_head_ne _ _ '-' 'd' (by decide) rfl (by decide)
    · exact @not_pref_of_head_ne _ _ '-' ' ' (by decide) (hcont l hl2).1 (by decide)
  have hval : pyStrip (afterColon (str "description: " ++ m)) = m := by
    rcases hm with rfl | rfl <;> decide
  have hdp : (str "description:").isPrefixOf (str "description: " ++ m) = true := rfl
  have hstrD : pyStrip (str "description: " ++ m) ≠ str "---" := by
    rcases hm with rfl | rfl <;> decide
  constructor
  · -- parse_skill_md: placeholder
    have hno : noEarlyOcc (str "\n---") (joinLines ((str "description: " ++ m) :: cont)) := by
      have h := noEarlyOcc_joinLines (p := str "---") (by decide) hnoPref
      rw [show ('\n' :: str "---") = str "\n---" from by decide] at h
      exact h
    rw [parseSkillMd_desc_of_fm (extractFM_structured rest hno)]
    rw [splitNl_joinLines (by simp) hlinesOk]
    rw [List.foldl_cons]
    rw [foldl_fmStep_desc_const (by
      intro c hc
      obtain ⟨c', rfl⟩ : ∃ c', c = ' ' :: c' := by
        have hh := (hcont c hc).1
        cases c with
        | nil => cases hh
        | cons a c' =>
          rw [List.head?_cons] at hh
          cases Option.some.inj hh
          exact ⟨c', rfl⟩
      rfl)]
    exact fmStep_desc_block hdp hval hm
  · -- get_skill_info: joined continuation lines
    have hcontent : str "---\n" ++
        (joinLines ((str "description: " ++ m) :: cont) ++ (str "\n---" ++ rest)) =
        str "---" ++ '\n' :: (joinLines ((str "description: " ++ m) :: cont) ++
          '\n' :: (str "---" ++ rest)) := rfl
    obtain ⟨zs, hpl⟩ : ∃ zs, pyLines (str "---\n" ++
        (joinLines ((str "description: " ++ m) :: cont) ++ (str "\n---" ++ rest))) =
        str "---" :: (str "description: " ++ m) :: (cont ++ (str "---" :: zs)) := by
      have hs1 : splitNl (str "---\n" ++
          (joinLines ((str "description: " ++ m) :: cont) ++ (str "\n---" ++ rest))) =
          str "---" :: (((str "description: " ++ m) :: cont) ++ splitNl (str "---" ++ rest)) := by
        rw [hcontent, splitNl_cons _ (by decide), splitNl_joinLines_append (by simp) hlinesOk]
      rcases hrest with rfl | hh
      · have hzs : splitNl (str "---\n" ++
            (joinLines ((str "description: " ++ m) :: cont) ++ (str "\n---" ++ []))) =
            (str "---" :: (str "description: " ++ m) :: cont) ++ [str "---"] := by
          rw [hs1, List.append_nil, show splitNl (str "---") = [str "---"] from by decide]
          simp
        refine ⟨[], ?_⟩
        rw [pyLines_of_last_ne_nil (l := str "---")
          (by rw [hzs]; exact List.getLast?_concat _) (by decide), hzs]
        simp
      · obtain ⟨r', rfl⟩ : ∃ r', rest = '\n' :: r' := by
          cases rest with
          | nil => cases hh
          | cons c t =>
            rw [List.head?_cons] at hh
            cases Option.some.inj hh
            exact ⟨t, rfl⟩
        have hsz : splitNl (str "---\n" ++
            (joinLines ((str "description: " ++ m) :: cont) ++ (str "\n---" ++ '\n' :: r'))) =
            ((str "---" :: (str "description: " ++ m) :: cont) ++ [str "---"]) ++
              splitNl r' := by
          rw [hs1, splitNl_cons _ (by decide)]
          simp
        obtain ⟨zs, hz⟩ := pyLines_shape hsz (splitNl_ne_nil r')
        refine ⟨zs, ?_⟩
        rw [hz]
        simp
    rw [getSkillInfo]
    simp only [hpl]
    rw [if_pos (by decide : pyStrip (str "---") = str "---")]
    rw [giLoop_block_start _ _ hstrD rfl rfl hdp hval hm]
    rw [giLoop_reading_run (fun c hc => ⟨(hcont c hc).1, (hcont c hc).2.2⟩) _ rfl]
    simp only [List.nil_append]
    cases hmap : cont.map pyStrip with
    | nil => simp [List.intercalate]
    | cons a b => simp

/-- Concrete instance of `c5_block_scalar_description`: a `description: |`
block with two indented continuation lines. -/
theorem c5_witness :
    (parseSkillMd (str "f") (str "---\n" ++
      (joinLines ((str "description: " ++ str "|") :: [str "  line one", str "  line two"]) ++
        (str "\n---" ++ str "\nbody")))).description = str "See details." ∧
    (getSkillInfo (str "g") (str "---\n" ++
      (joinLines ((str "description: " ++ str "|") :: [str "  line one", str "  line two"]) ++
        (str "\n---" ++ str "\nbody")))).description =
      List.intercalate (str " ") ([str "  line one", str "  line two"].map pyStrip) :=
  c5_block_scalar_description (str "f") (str "g") (str "|") (str "\nbody")
    [str "  line one", str "  line two"]
    (Or.inl rfl) (by decide) (Or.inr (by decide))

/-! ## Lemmas about the category loop of `generate_markdown` -/

theorem genCats_processed_mem (skills : List (Str × SkillInfo)) :
    ∀ (cats : List (Str × List Str)) (pr : List Str) (x : Str),
      x ∈ (genCats skills cats pr).2 ↔
        x ∈ pr ∨ ∃ c ∈ cats, x ∈ c.2 ∧ (lookupSk skills x).isSome = true := by
  intro cats
  induction cats with
  | nil =>
    intro pr x
    simp [genCats]
  | cons c cats' ih =>
    intro pr x
    obtain ⟨key, ids⟩ := c
    simp only [genCats]
    rw [ih]
    simp only [List.mem_append, List.mem_filter, List.mem_cons]
    constructor
    · rintro (⟨h | h⟩ | ⟨cc, hcc, hx, hs⟩)
      · exact Or.inl h
      · exact Or.inr ⟨(key, ids), Or.inl rfl, h.1, h.2⟩
      · exact Or.inr ⟨cc, Or.inr hcc, hx, hs⟩
    · rintro (h | ⟨cc, hcc | hcc, hx, hs⟩)
      · exact Or.inl (Or.inl h)
      · subst hcc
        exact Or.inl (Or.inr ⟨hx, hs⟩)
      · exact Or.inr ⟨cc, hcc, hx, hs⟩

theorem genCats_blocks_mem (skills : List (Str × SkillInfo)) :
    ∀ (cats : List (Str × List Str)) (pr : List Str) {b : Str × List SkillInfo},
      b ∈ (genCats skills cats pr).1 →
      ∃ c ∈ cats, b.1 = c.1 ∧ b.2 = c.2.filterMap (lookupSk skills) := by
  intro cats
  induction cats with
  | nil =>
    intro pr b hb
    simp [genCats] at hb
  | cons c cats' ih =>
    intro pr b hb
    obtain ⟨key, ids⟩ := c
    simp only [genCats] at hb
    rw [List.mem_append] at hb
    rcases hb with hb | hb
    · by_cases he : ids.filterMap (lookupSk skills) = []
      · rw [if_pos he] at hb
        cases hb
      · rw [if_neg he] at hb
        rcases List.mem_singleton.mp hb with rfl
        exact ⟨(key, ids), List.mem_cons_self _ _, rfl, rfl⟩
    · obtain ⟨cc, hcc, h1, h2⟩ := ih _ hb
      exact ⟨cc, List.mem_cons_of_mem _ hcc, h1, h2⟩

theorem lookupSk_isSome_iff (skills : List (Str × SkillInfo)) (n : Str) :
    (lookupSk skills n).isSome = true ↔ n ∈ skills.map Prod.fst := by
  rw [lookupSk]
  rw [Option.isSome_map']
  rw [List.find?_isSome]
  simp only [List.mem_map]
  constructor
  · rintro ⟨p, hp, hd⟩
    exact ⟨p, hp, of_decide_eq_true hd⟩
  · rintro ⟨p, hp, hd⟩
    exact ⟨p, hp, decide_eq_true hd⟩

theorem buildSkillsMap_name {reg : List (Str × Str)} :
    ∀ p ∈ buildSkillsMap reg, p.2.name = p.1 := by
  intro p hp
  rw [buildSkillsMap] at hp
  obtain ⟨q, _, rfl⟩ := List.mem_map.mp hp
  rfl

theorem buildSkillsMap_keys (reg : List (Str × Str)) :
    (buildSkillsMap reg).map Prod.fst = reg.map Prod.fst := by
  rw [buildSkillsMap, List.map_map]
  rfl

theorem lookupSk_some_mem {skills : List (Str × SkillInfo)} {n : Str} {v : SkillInfo}
    (h : lookupSk skills n = some v) : (n, v) ∈ skills := by
  rw [lookupSk, Option.map_eq_some'] at h
  obtain ⟨p, hp, rfl⟩ := h
  have hm := List.mem_of_find?_eq_some hp
  have hd := List.find?_some hp
  have : p.1 = n := of_decide_eq_true hd
  rw [← this]
  exact hm

theorem renderBlock_mem {lang : Lang} {b : Str × List SkillInfo} {l : Str}
    (h : l ∈ renderBlock lang b) :
    l = str "### " ++ catName lang b.1 ∨ l = [] ∨ l = hdrRow lang ∨ l = sepRow ∨
      ∃ s ∈ b.2, l = rowLine s := by
  simp only [renderBlock, List.cons_append, List.nil_append, List.mem_cons,
    List.mem_append, List.mem_map] at h
  rcases h with rfl | rfl | rfl | rfl | h
  · exact Or.inl rfl
  · exact Or.inr (Or.inl rfl)
  · exact Or.inr (Or.inr (Or.inl rfl))
  · exact Or.inr (Or.inr (Or.inr (Or.inl rfl)))
  · rcases h with ⟨s, hs, rfl⟩ | rfl | h0
    · exact Or.inr (Or.inr (Or.inr (Or.inr ⟨s, hs, rfl⟩)))
    · exact Or.inr (Or.inl rfl)
    · cases h0

/-- Claim C7: identifiers present in the registry but absent from every
category of `CATEGORIES` appear exactly once in the rendered catalog, as
the rows of the `Other` section, in registry enumeration order; if no such
identifier exists, no `Other` section is emitted.  Stated as: (1) the
code's "not yet emitted" remainder equals the identifiers absent from
every category; (2) the rendered lines place exactly those records' rows
under the `Other` heading, in registry order; (3) no category block
contains such a record; (4) each such record occurs exactly once among the
`Other` rows; (5) with no such identifier the `Other` heading is absent
from the output. -/
theorem c7_other_section (reg : List (Str × Str)) (lang : Lang)
    (hnd : (reg.map Prod.fst).Nodup) :
    (buildSkillsMap reg).filter
        (fun p => decide (p.1 ∉ (genCats (buildSkillsMap reg) CATEGORIES []).2)) =
      (buildSkillsMap reg).filter (fun p => decide (p.1 ∉ allCatIds)) ∧
    genLines (buildSkillsMap reg) lang =
      [mdTitle lang, []] ++
        ((genCats (buildSkillsMap reg) CATEGORIES []).1.map (renderBlock lang)).join ++
        (if ((buildSkillsMap reg).filter (fun p => decide (p.1 ∉ allCatIds))).map (·.2) = []
         then []
         else [otherHd lang, [], hdrRow lang, sepRow] ++
           (((buildSkillsMap reg).filter
              (fun p => decide (p.1 ∉ allCatIds))).map (·.2)).map rowLine ++ [[]]) ∧
    (∀ p ∈ (buildSkillsMap reg).filter (fun p => decide (p.1 ∉ allCatIds)),
      ∀ b ∈ (genCats (buildSkillsMap reg) CATEGORIES []).1, p.2 ∉ b.2) ∧
    (∀ p ∈ (buildSkillsMap reg).filter (fun p => decide (p.1 ∉ allCatIds)),
      (((buildSkillsMap reg).filter
        (fun p => decide (p.1 ∉ allCatIds))).map (·.2)).count p.2 = 1) ∧
    ((buildSkillsMap reg).filter (fun p => decide (p.1 ∉ allCatIds)) = [] →
      otherHd lang ∉ genLines (buildSkillsMap reg) lang) := by
  have hfil : (buildSkillsMap reg).filter
      (fun p => decide (p.1 ∉ (genCats (buildSkillsMap reg) CATEGORIES []).2)) =
      (buildSkillsMap reg).filter (fun p => decide (p.1 ∉ allCatIds)) := by
    apply List.filter_congr
    intro p hp
    have hmem : p.1 ∈ (buildSkillsMap reg).map Prod.fst := List.mem_map_of_mem _ hp
    rw [decide_eq_decide]
    apply not_congr
    rw [genCats_processed_mem]
    simp only [List.mem_nil_iff, false_or]
    rw [allCatIds, List.mem_bind]
    constructor
    · rintro ⟨c, hc, hx, _⟩
      exact ⟨c, hc, hx⟩
    · rintro ⟨c, hc, hx⟩
      exact ⟨c, hc, hx, (lookupSk_isSome_iff _ _).mpr hmem⟩
  have hb : genLines (buildSkillsMap reg) lang =
      [mdTitle lang, []] ++
        ((genCats (buildSkillsMap reg) CATEGORIES []).1.map (renderBlock lang)).join ++
        (if ((buildSkillsMap reg).filter (fun p => decide (p.1 ∉ allCatIds))).map (·.2) = []
         then []
         else [otherHd lang, [], hdrRow lang, sepRow] ++
           (((buildSkillsMap reg).filter
              (fun p => decide (p.1 ∉ allCatIds))).map (·.2)).map rowLine ++ [[]]) := by
    simp only [genLines]
    rw [hfil]
  have hcc : ∀ p ∈ (buildSkillsMap reg).filter (fun p => decide (p.1 ∉ allCatIds)),
      ∀ b ∈ (genCats (buildSkillsMap reg) CATEGORIES []).1, p.2 ∉ b.2 := by
    intro p hp b hb2 hmem
    obtain ⟨c, hcm, _, h2⟩ := genCats_blocks_mem _ CATEGORIES [] hb2
    rw [h2] at hmem
    obtain ⟨n, hn, hlook⟩ := List.mem_filterMap.mp hmem
    have hp2 := List.mem_filter.mp hp
    have hname : p.2.name = n := buildSkillsMap_name (n, p.2) (lookupSk_some_mem hlook)
    have hpname : p.2.name = p.1 := buildSkillsMap_name p hp2.1
    have heq : p.1 = n := by rw [← hpname, hname]
    have hin : p.1 ∈ allCatIds := by
      rw [heq, allCatIds, List.mem_bind]
      exact ⟨c, hcm, hn⟩
    exact (of_decide_eq_true hp2.2) hin
  have hnd2 : (((buildSkillsMap reg).filter
      (fun p => decide (p.1 ∉ allCatIds))).map (·.2)).Nodup := by
    have hkeys : ((buildSkillsMap reg).map Prod.fst).Nodup := by
      rw [buildSkillsMap_keys]
      exact hnd
    have h1 : (((buildSkillsMap reg).filter
        (fun p => decide (p.1 ∉ allCatIds))).map Prod.fst).Nodup :=
      hkeys.sublist ((List.filter_sublist _).map Prod.fst)
    have hpairs : ((buildSkillsMap reg).filter
        (fun p => decide (p.1 ∉ allCatIds))).Nodup := h1.of_map
    apply List.Nodup.map_on ?_ hpairs
    intro x hx y hy hxy
    have hx1 := buildSkillsMap_name x (List.mem_filter.mp hx).1
    have hy1 := buildSkillsMap_name y (List.mem_filter.mp hy).1
    have hfst : x.1 = y.1 := by rw [← hx1, ← hy1, hxy]
    exact Prod.ext hfst hxy
  refine ⟨hfil, hb, hcc, ?_, ?_⟩
  · intro p hp
    exact List.count_eq_one_of_mem hnd2 (List.mem_map_of_mem _ hp)
  · intro h0 hmem
    rw [hb, h0] at hmem
    rw [List.map_nil, if_pos (rfl : ([] : List SkillInfo) = []), List.append_nil] at hmem
    rw [List.cons_append, List.cons_append, List.nil_append] at hmem
    rcases List.mem_cons.mp hmem with h | hmem2
    · cases lang <;> exact absurd h (by decide)
    rcases List.mem_cons.mp hmem2 with h | hmem3
    · cases lang <;> exact absurd h (by decide)
    obtain ⟨ls, hls, hin⟩ := List.mem_join.mp hmem3
    obtain ⟨b, hbm, rfl⟩ := List.mem_map.mp hls
    rcases renderBlock_mem hin with h1 | h1 | h1 | h1 | hrow
    · obtain ⟨c, hcm, hfst, _⟩ := genCats_blocks_mem _ _ _ hbm
      rw [hfst] at h1
      have hall : ∀ cc ∈ CATEGORIES, otherHd lang ≠ str "### " ++ catName lang cc.1 := by
        cases lang <;> decide
      exact hall c hcm h1
    · cases lang <;> exact absurd h1 (by decide)
    · cases lang <;> exact absurd h1 (by decide)
    · cases lang <;> exact absurd h1 (by decide)
    · obtain ⟨s, _, h1⟩ := hrow
      have h2 : (otherHd lang).head? = some '#' := by cases lang <;> rfl
      have h3 : (rowLine s).head? = some '|' := rfl
      rw [h1, h3] at h2
      exact absurd h2 (by decide)

theorem updateDoc_structured {sM eM M : Str} (hsM : sM ≠ []) (heM : eM ≠ [])
    (a b c : Str) (h1 : noEarlyOcc sM a) (h2 : noEarlyOcc eM b)
    (h3 : findOcc sM (eM ++ c) = none) :
    updateDoc sM eM M (a ++ (sM ++ (b ++ (eM ++ c)))) = a ++ (M ++ (eM ++ c)) := by
  rw [updateDoc, if_pos (hasMatch_structured a b c)]
  exact subAll_structured hsM heM a h1 h2 (findOcc_none_no_occ h3)

/-! ## Newline-freeness of extracted fields and rendered lines -/

theorem splitNl_pieces_no_nl : ∀ (s : Str), ∀ l ∈ splitNl s, ('\n' : Char) ∉ l := by
  intro s
  induction s with
  | nil =>
    intro l hl
    rw [splitNl] at hl
    rcases List.mem_singleton.mp hl with rfl
    simp
  | cons c t ih =>
    intro l hl
    rw [splitNl] at hl
    by_cases hc : c = '\n'
    · rw [if_pos hc] at hl
      rcases List.mem_cons.mp hl with rfl | hl2
      · simp
      · exact ih l hl2
    · rw [if_neg hc] at hl
      cases hsp : splitNl t with
      | nil => exact absurd hsp (splitNl_ne_nil t)
      | cons h0 r =>
        rw [hsp] at hl
        rcases List.mem_cons.mp hl with rfl | hl2
        · intro hm
          rcases List.mem_cons.mp hm with h | h
          · exact hc h.symm
          · exact ih h0 (hsp ▸ List.mem_cons_self _ _) h
        · exact ih l (hsp ▸ List.mem_cons_of_mem _ hl2)

theorem mem_dropWhile {p : Char → Bool} {c : Char} {l : Str}
    (h : c ∈ l.dropWhile p) : c ∈ l :=
  (List.dropWhile_suffix p).subset h

theorem mem_dropTrail {p : Char → Bool} {c : Char} {l : Str}
    (h : c ∈ dropTrail p l) : c ∈ l :=
  (dropTrail_pref p l).subset h

theorem mem_pyStrip {c : Char} {l : Str} (h : c ∈ pyStrip l) : c ∈ l :=
  mem_dropWhile (mem_dropTrail h)

theorem mem_pyStripChars {cs : List Char} {c : Char} {l : Str}
    (h : c ∈ pyStripChars cs l) : c ∈ l :=
  mem_dropWhile (mem_dropTrail h)

theorem mem_stripQuotes {c : Char} {l : Str} (h : c ∈ stripQuotes l) : c ∈ l :=
  mem_pyStripChars h

theorem mem_afterColon {c : Char} {l : Str} (h : c ∈ afterColon l) : c ∈ l := by
  rw [afterColon] at h
  exact mem_dropWhile (List.mem_of_mem_drop h)

theorem fmStep_desc_cases (info : SkillInfo) (line : Str) :
    (fmStep info line).description = info.description ∨
    (fmStep info line).description = str "See details." ∨
    (fmStep info line).description = stripQuotes (pyStrip (afterColon line)) := by
  rw [fmStep]
  by_cases h : (str "description:").isPrefixOf line = true
  · simp only [h, if_true]
    by_cases hb : pyStrip (afterColon line) = str "|" ∨ pyStrip (afterColon line) = str ">"
    · rw [if_pos hb]
      by_cases hn : (str "name:").isPrefixOf line = true <;>
        simp only [hn, Bool.false_eq_true, if_false, if_true] <;>
        simp
    · rw [if_neg hb]
      by_cases hn : (str "name:").isPrefixOf line = true <;>
        simp only [hn, Bool.false_eq_true, if_false, if_true] <;>
        simp
  · simp only [h, Bool.false_eq_true, if_false]
    by_cases hn : (str "name:").isPrefixOf line = true <;>
      simp only [hn, Bool.false_eq_true, if_false, if_true] <;>
      simp

theorem foldl_fmStep_desc_no_nl :
    ∀ {lines : List Str}, (∀ l ∈ lines, ('\n' : Char) ∉ l) →
      ∀ st : SkillInfo, ('\n' : Char) ∉ st.description →
        ('\n' : Char) ∉ (lines.foldl fmStep st).description := by
  intro lines
  induction lines with
  | nil => intro _ st hst; exact hst
  | cons l ls ih =>
    intro h st hst
    rw [List.foldl_cons]
    apply ih (fun a ha => h a (List.mem_cons_of_mem _ ha))
    rcases fmStep_desc_cases st l with he | he | he <;> rw [he]
    · exact hst
    · decide
    · intro hm
      exact h l (List.mem_cons_self _ _) (mem_afterColon (mem_pyStrip (mem_stripQuotes hm)))

theorem parse_fields_no_nl (folder content : Str) :
    ('\n' : Char) ∉ (parseSkillMd folder content).description ∧
    (∀ t ∈ (parseSkillMd folder content).triggers, ('\n' : Char) ∉ t) ∧
    (∀ e ∈ (parseSkillMd folder content).effect, ('\n' : Char) ∉ e) := by
  have hitems : ∀ (body : Str), ∀ t ∈ listItems body, ('\n' : Char) ∉ t := by
    intro body t ht
    rw [listItems] at ht
    obtain ⟨lr, hlr, rfl⟩ := List.mem_map.mp ht
    have hlr2 := (List.mem_filter.mp hlr).1
    intro hm
    exact splitNl_pieces_no_nl body lr hlr2 (mem_pyStripChars (mem_pyStrip hm))
  refine ⟨?_, ?_, ?_⟩
  · rw [parseSkillMd]
    cases hfm : extractFM content with
    | none => simp
    | some fm =>
      simp only []
      exact foldl_fmStep_desc_no_nl (splitNl_pieces_no_nl fm) _ (by simp)
  · rw [parseSkillMd]
    cases hsec : findSec trigKeys content with
    | none => simp
    | some body =>
      simp only []
      intro t ht
      exact hitems body t ht
  · rw [parseSkillMd]
    cases hsec : findSec effKeys content with
    | none => simp
    | some body =>
      simp only []
      intro e he
      exact hitems body e he

theorem escPipe_no_nl {d : Str} (h : ('\n' : Char) ∉ d) : ('\n' : Char) ∉ escPipe d := by
  induction d with
  | nil => simp [escPipe]
  | cons c t ih =>
    rw [escPipe]
    have hc : '\n' ≠ c := fun he => h (he ▸ List.mem_cons_self _ _)
    have ht := ih (fun hm => h (List.mem_cons_of_mem _ hm))
    by_cases hp : c = '|'
    · rw [if_pos hp]
      intro hm
      rcases List.mem_cons.mp hm with he | hm2
      · exact absurd he (by decide)
      · rcases List.mem_cons.mp hm2 with he | hm3
        · exact absurd he (by decide)
        · exact ht hm3
    · rw [if_neg hp]
      intro hm
      rcases List.mem_cons.mp hm with he | hm2
      · exact hc he
      · exact ht hm2

theorem mem_joinSep {c : Char} {sep : Str} :
    ∀ {xs : List Str}, c ∈ joinSep sep xs → c ∈ sep ∨ ∃ x ∈ xs, c ∈ x := by
  intro xs
  induction xs with
  | nil =>
    intro h
    rw [joinSep] at h
    cases h
  | cons x xs' ih =>
    intro h
    cases xs' with
    | nil =>
      rw [joinSep] at h
      exact Or.inr ⟨x, List.mem_singleton_self x, h⟩
    | cons y ys =>
      rw [joinSep] at h
      rcases List.mem_append.mp h with h1 | h2
      · rcases List.mem_append.mp h1 with h0 | hs
        · exact Or.inr ⟨x, List.mem_cons_self _ _, h0⟩
        · exact Or.inl hs
      · rcases ih h2 with hs | ⟨z, hz, hcz⟩
        · exact Or.inl hs
        · exact Or.inr ⟨z, List.mem_cons_of_mem _ hz, hcz⟩

theorem rowLine_no_nl {s : SkillInfo} (hn : ('\n' : Char) ∉ s.name)
    (hd : ('\n' : Char) ∉ s.description)
    (ht : ∀ t ∈ s.triggers, ('\n' : Char) ∉ t)
    (he : ∀ e ∈ s.effect, ('\n' : Char) ∉ e) : ('\n' : Char) ∉ rowLine s := by
  have hcell : ∀ (xs : List Str), (∀ x ∈ xs, ('\n' : Char) ∉ x) →
      ('\n' : Char) ∉ cellOrDash xs := by
    intro xs hxs
    rw [cellOrDash]
    by_cases hx : xs = []
    · rw [if_pos hx]
      decide
    · rw [if_neg hx]
      intro hm
      rcases mem_joinSep hm with hs | ⟨z, hz, hcz⟩
      · exact absurd hs (by decide)
      · exact hxs z hz hcz
  rw [rowLine]
  intro hm
  simp only [List.mem_append] at hm
  rcases hm with (((((((((h | h) | h) | h) | h) | h) | h) | h) | h) | h) | h
  · exact absurd h (by decide)
  · exact hn h
  · exact absurd h (by decide)
  · exact hn h
  · exact absurd h (by decide)
  · exact escPipe_no_nl hd h
  · exact absurd h (by decide)
  · exact hcell s.triggers ht h
  · exact absurd h (by decide)
  · exact hcell s.effect he h
  · exact absurd h (by decide)

theorem mem_genLines {skills : List (Str × SkillInfo)} {lang : Lang} {l : Str}
    (h : l ∈ genLines skills lang) :
    l = mdTitle lang ∨ l = [] ∨ l = hdrRow lang ∨ l = sepRow ∨ l = otherHd lang ∨
      (∃ key ∈ CATEGORIES, l = str "### " ++ catName lang key.1) ∨
      ∃ p ∈ skills, l = rowLine p.2 := by
  simp only [genLines] at h
  rcases List.mem_append.mp h with h1 | h2
  · rcases List.mem_append.mp h1 with h0 | hj
    · rcases List.mem_cons.mp h0 with rfl | h0b
      · exact Or.inl rfl
      · rcases List.mem_cons.mp h0b with rfl | h0c
        · exact Or.inr (Or.inl rfl)
        · cases h0c
    · obtain ⟨ls, hls, hin⟩ := List.mem_join.mp hj
      obtain ⟨b, hbm, rfl⟩ := List.mem_map.mp hls
      rcases renderBlock_mem hin with h1 | h1 | h1 | h1 | ⟨s, hs, h1⟩
      · obtain ⟨c, hcm, hfst, _⟩ := genCats_blocks_mem _ _ _ hbm
        exact Or.inr (Or.inr (Or.inr (Or.inr (Or.inr (Or.inl ⟨c, hcm, by rw [h1, hfst]⟩)))))
      · exact Or.inr (Or.inl h1)
      · exact Or.inr (Or.inr (Or.inl h1))
      · exact Or.inr (Or.inr (Or.inr (Or.inl h1)))
      · obtain ⟨c, hcm, _, h2⟩ := genCats_blocks_mem _ _ _ hbm
        rw [h2] at hs
        obtain ⟨n, _, hlook⟩ := List.mem_filterMap.mp hs
        exact Or.inr (Or.inr (Or.inr (Or.inr (Or.inr (Or.inr
          ⟨(n, s), lookupSk_some_mem hlook, h1⟩)))))
  · split at h2
    · cases h2
    · simp only [List.cons_append, List.nil_append, List.mem_cons, List.mem_append,
        List.mem_map] at h2
      rcases h2 with rfl | rfl | rfl | rfl | ⟨s, hsm, rfl⟩ | rfl | h0
      · exact Or.inr (Or.inr (Or.inr (Or.inr (Or.inl rfl))))
      · exact Or.inr (Or.inl rfl)
      · exact Or.inr (Or.inr (Or.inl rfl))
      · exact Or.inr (Or.inr (Or.inr (Or.inl rfl)))
      · obtain ⟨p, hp, hps⟩ := hsm
        exact Or.inr (Or.inr (Or.inr (Or.inr (Or.inr (Or.inr
          ⟨p, (List.mem_filter.mp hp).1, by rw [hps]⟩)))))
      · exact Or.inr (Or.inl rfl)
      · cases h0

theorem mem_catName {c : Char} {lang : Lang} {key : Str} (h : c ∈ catName lang key) :
    c ∈ key := by
  cases lang with
  | zh => exact h
  | en =>
    rw [catName] at h
    cases hf : findOcc (str " / ") key with
    | none =>
      rw [hf] at h
      exact h
    | some k =>
      rw [hf] at h
      exact List.mem_of_mem_take h

theorem genLines_no_nl (reg : List (Str × Str)) (lang : Lang)
    (hreg : ∀ q ∈ reg, ('\n' : Char) ∉ q.1) :
    ∀ l ∈ genLines (buildSkillsMap reg) lang, ('\n' : Char) ∉ l := by
  intro l hl
  rcases mem_genLines hl with rfl | rfl | rfl | rfl | rfl | ⟨key, hk, rfl⟩ | ⟨p, hp, rfl⟩
  · cases lang <;> decide
  · simp
  · cases lang <;> decide
  · decide
  · cases lang <;> decide
  · intro hm
    rcases List.mem_append.mp hm with h | h
    · exact absurd h (by decide)
    · have hkeys : ∀ c ∈ CATEGORIES, ('\n' : Char) ∉ c.1 := by decide
      exact hkeys key hk (mem_catName h)
  · obtain ⟨q, hq, rfl⟩ := List.mem_map.mp (by rwa [buildSkillsMap] at hp)
    have hpar := parse_fields_no_nl q.1 q.2
    exact rowLine_no_nl (hreg q hq) hpar.1 hpar.2.1 hpar.2.2

theorem pref_take_k {p l : Str} (h : p <+: l) {k : Nat} (hk : k ≤ p.length) :
    l.take k = p.take k := by
  have ht := pref_take h
  have := congrArg (List.take k) ht
  rwa [List.take_take, Nat.min_eq_left hk] at this

theorem take3_shape {p : Str} (h : p.take 3 = str "## ") :
    ∃ p3, p = '#' :: ('#' :: (' ' :: p3)) := by
  cases p with
  | nil => cases h
  | cons a q =>
    cases q with
    | nil => cases h
    | cons b r =>
      cases r with
      | nil => cases h
      | cons c t =>
        have h3 : ([a, b, c] : Str) = str "## " := by
          have : (a :: b :: c :: t).take 3 = [a, b, c] := rfl
          rw [← this, h]
        cases h3
        exact ⟨t, rfl⟩

theorem genLines_not_pref {skills : List (Str × SkillInfo)} {lang : Lang} {p : Str}
    (hp3 : p.take 3 = str "## ") (hpt : ¬ p <+: mdTitle lang) :
    ∀ l ∈ genLines skills lang, ¬ p <+: l := by
  obtain ⟨p3, rfl⟩ := take3_shape hp3
  intro l hl
  have hlen : 3 ≤ ('#' :: ('#' :: (' ' :: p3))).length := by simp
  rcases mem_genLines hl with rfl | rfl | rfl | rfl | rfl | ⟨key, _, rfl⟩ | ⟨q, _, rfl⟩
  · exact hpt
  · intro hc
    have := pref_take hc
    simp at this
  · exact not_pref_of_head_ne rfl (by cases lang <;> rfl) (by decide)
  · exact not_pref_of_head_ne rfl rfl (by decide)
  · intro hc
    have h3 := pref_take_k hc hlen
    rw [hp3] at h3
    have h4 : (otherHd lang).take 3 = str "###" := by cases lang <;> decide
    rw [h4] at h3
    exact absurd h3 (by decide)
  · intro hc
    have h3 := pref_take_k hc hlen
    rw [hp3] at h3
    have h4 : (str "### " ++ catName lang key.1).take 3 = str "###" := by
      rw [List.take_append_eq_append_take]
      have h5 : (str "### ").take 3 = str "###" := by decide
      have h6 : 3 - (str "### ").length = 0 := by decide
      rw [h5, h6, List.take_zero, List.append_nil]
    rw [h4] at h3
    exact absurd h3 (by decide)
  · exact not_pref_of_head_ne rfl rfl (by decide)

theorem pref_drop {T J : Str} (h : T <+: J) (k : Nat) : T.drop k <+: J.drop k := by
  obtain ⟨t, rfl⟩ := h
  rw [List.drop_append_eq_append_drop]
  exact ⟨t.drop (k - T.length), rfl⟩

theorem linesJoin_cons (l : Str) (ls : List Str) :
    linesJoin (l :: ls) = l ++ '\n' :: linesJoin ls := by
  simp [linesJoin]

theorem noEarlyOcc_append_left {pat a b : Str} (h : noEarlyOcc pat (a ++ b)) :
    noEarlyOcc pat b := by
  intro i hi hocc
  have hlen : a.length + i < (a ++ b).length := by
    rw [List.length_append]
    omega
  apply h (a.length + i) hlen
  rw [List.append_assoc, List.drop_append_eq_append_drop,
    List.drop_of_length_le (by omega), List.nil_append]
  have : a.length + i - a.length = i := by omega
  rw [this]
  exact hocc

theorem dropTrail_append_last {p : Char → Bool} {a : Str} (b : Str)
    (hlast : ∀ c, a.getLast? = some c → p c = false) :
    dropTrail p (a ++ b) = a ++ dropTrail p b := by
  rw [dropTrail, List.reverse_append, List.dropWhile_append]
  cases hbe : (b.reverse.dropWhile p).isEmpty
  · simp only [Bool.false_eq_true, if_false]
    rw [List.reverse_append, List.reverse_reverse]
    rfl
  · simp only [if_true]
    rw [dropWhile_no_head (fun c hc => hlast c (by rwa [List.head?_reverse] at hc)),
      List.reverse_reverse]
    rw [List.isEmpty_iff] at hbe
    rw [dropTrail, hbe]
    simp

theorem pref_linesJoin_line {p : Str} (hne : p ≠ []) (hnl : ('\n' : Char) ∉ p) :
    ∀ {ls : List Str}, p <+: linesJoin ls → ∃ l ∈ ls, p <+: l := by
  intro ls h
  cases ls with
  | nil =>
    rw [show linesJoin [] = [] from rfl] at h
    obtain ⟨t, ht⟩ := h
    cases p with
    | nil => exact absurd rfl hne
    | cons a q => cases ht
  | cons l ls' =>
    rw [linesJoin_cons] at h
    exact ⟨l, List.mem_cons_self _ _, pref_through_nl hnl h⟩

theorem linesJoin_drop_nl :
    ∀ {lines : List Str}, (∀ l ∈ lines, ('\n' : Char) ∉ l) →
      ∀ {j : Nat} {r : Str}, (linesJoin lines).drop j = '\n' :: r →
        ∃ ls', (∀ l ∈ ls', l ∈ lines) ∧ r = linesJoin ls' := by
  intro lines
  induction lines with
  | nil =>
    intro _ j r hdrop
    rw [show linesJoin [] = ([] : Str) from rfl, List.drop_nil] at hdrop
    cases hdrop
  | cons l ls ih =>
    intro h j r hdrop
    rw [linesJoin_cons] at hdrop
    by_cases hjl : j < l.length
    · exfalso
      rw [List.drop_append_eq_append_drop, Nat.sub_eq_zero_of_le (Nat.le_of_lt hjl),
        List.drop_zero, List.drop_eq_getElem_cons hjl, List.cons_append] at hdrop
      have hlj : l[j] = '\n' := (List.cons.injEq .. ▸ hdrop).1
      exact h l (List.mem_cons_self _ _) (hlj ▸ l.getElem_mem hjl)
    · rw [List.drop_append_eq_append_drop, List.drop_of_length_le (Nat.le_of_not_lt hjl),
        List.nil_append] at hdrop
      cases hm : j - l.length with
      | zero =>
        rw [hm, List.drop_zero] at hdrop
        exact ⟨ls, fun a ha => List.mem_cons_of_mem _ ha,
          ((List.cons.injEq .. ▸ hdrop).2).symm⟩
      | succ m =>
        rw [hm, List.drop_succ_cons] at hdrop
        obtain ⟨ls', hsub, hr⟩ := ih (fun a ha => h a (List.mem_cons_of_mem _ ha)) hdrop
        exact ⟨ls', fun a ha => List.mem_cons_of_mem _ (hsub a ha), hr⟩

theorem getElem_of_pref {a b : Str} (h : a <+: b) {i : Nat} (hia : i < a.length)
    (hib : i < b.length) : b[i] = a[i] := by
  obtain ⟨u, rfl⟩ := h
  exact List.getElem_append_left hia

theorem noEarlyOcc_of_prefix_join {p : Str} (hpne : p ≠ []) (hpn : ('\n' : Char) ∉ p)
    {lines : List Str} (hln : ∀ l ∈ lines, ('\n' : Char) ∉ l)
    (hnp : ∀ l ∈ lines, ¬ p <+: l)
    {T : Str} (hT : T <+: linesJoin lines) :
    noEarlyOcc ('\n' :: p) (T ++ ['\n']) := by
  intro i hi hocc
  rw [List.length_append, List.length_cons, List.length_nil] at hi
  rw [List.append_assoc] at hocc
  have hmerge : (['\n'] ++ '\n' :: p : Str) = '\n' :: ('\n' :: p) := rfl
  rw [hmerge] at hocc
  by_cases hiT : i < T.length
  · -- the occurrence would put a newline at index i of T and make p a
    -- prefix of some line, contradicting the line hypotheses.
    rw [List.drop_append_eq_append_drop, Nat.sub_eq_zero_of_le (Nat.le_of_lt hiT),
      List.drop_zero, List.drop_eq_getElem_cons hiT, List.cons_append] at hocc
    obtain ⟨w, hw⟩ := hocc
    rw [List.cons_append] at hw
    have hTi : T[i] = '\n' := ((List.cons.injEq .. ▸ hw).1).symm
    have hptail : p <+: T.drop (i + 1) ++ '\n' :: ('\n' :: p) :=
      ⟨w, (List.cons.injEq .. ▸ hw).2⟩
    have hpT : p <+: T.drop (i + 1) := pref_through_nl hpn hptail
    have hiJ : i < (linesJoin lines).length := Nat.lt_of_lt_of_le hiT hT.length_le
    have hJi : (linesJoin lines)[i] = '\n' :=
      (getElem_of_pref hT hiT hiJ).trans hTi
    have hJd : (linesJoin lines).drop i = '\n' :: (linesJoin lines).drop (i + 1) := by
      rw [List.drop_eq_getElem_cons hiJ, hJi]
    obtain ⟨ls', hsub, hr⟩ := linesJoin_drop_nl hln hJd
    have hpJ : p <+: linesJoin ls' := by
      rw [← hr]
      exact hpT.trans (pref_drop hT (i + 1))
    obtain ⟨l, hl, hpl⟩ := pref_linesJoin_line hpne hpn hpJ
    exact hnp l (hsub l hl) hpl
  · -- i = T.length: the pattern would start at the final newline, forcing
    -- p itself to begin with a newline.
    have hie : i = T.length := by omega
    rw [List.drop_append_eq_append_drop, List.drop_of_length_le (by omega),
      List.nil_append, hie, Nat.sub_self, List.drop_zero] at hocc
    obtain ⟨w, hw⟩ := hocc
    rw [List.cons_append] at hw
    have hpw : p ++ w = '\n' :: p := (List.cons.injEq .. ▸ hw).2
    cases p with
    | nil => exact hpne rfl
    | cons c q =>
      rw [List.cons_append] at hpw
      have hc : c = '\n' := (List.cons.injEq .. ▸ hpw).1
      exact hpn (hc ▸ List.mem_cons_self c q)

theorem pref_cons_tail {c : Char} {a b : Str} (h : (c :: a) <+: (c :: b)) : a <+: b := by
  obtain ⟨t, ht⟩ := h
  rw [List.cons_append] at ht
  exact ⟨t, (List.cons.injEq .. ▸ ht).2⟩

theorem rendered_split {skills : List (Str × SkillInfo)} {lang : Lang} {p : Str}
    (hpne : p ≠ []) (hpn : ('\n' : Char) ∉ p)
    (hln : ∀ l ∈ genLines skills lang, ('\n' : Char) ∉ l)
    (hnp : ∀ l ∈ genLines skills lang, ¬ p <+: l) :
    ∃ M, renderedContent skills lang = (mdTitle lang ++ ['\n']) ++ M ∧
      noEarlyOcc ('\n' :: p) M := by
  obtain ⟨rest, hgl⟩ : ∃ rest, genLines skills lang = mdTitle lang :: ([] : Str) :: rest :=
    ⟨_, rfl⟩
  have hJ : generateMarkdown skills lang =
      mdTitle lang ++ '\n' :: linesJoin (([] : Str) :: rest) := by
    rw [generateMarkdown, hgl, linesJoin_cons]
  have hlast : ∀ c, (mdTitle lang).getLast? = some c → pyWsChar c = false := by
    cases lang with
    | zh =>
      intro c hc
      rw [show (mdTitle Lang.zh).getLast? = some '览' from by decide] at hc
      injection hc with h2
      rw [← h2]
      decide
    | en =>
      intro c hc
      rw [show (mdTitle Lang.en).getLast? = some 'w' from by decide] at hc
      injection hc with h2
      rw [← h2]
      decide
  have hdw : (generateMarkdown skills lang).dropWhile pyWsChar =
      generateMarkdown skills lang := by
    apply dropWhile_no_head
    intro c hc
    obtain ⟨t, hmt⟩ : ∃ t, mdTitle lang = '#' :: t := by
      cases lang
      · exact ⟨_, rfl⟩
      · exact ⟨_, rfl⟩
    rw [hJ, hmt, List.cons_append, List.head?_cons] at hc
    injection hc with h2
    rw [← h2]
    decide
  have hps : pyStrip (generateMarkdown skills lang) =
      mdTitle lang ++ dropTrail pyWsChar ('\n' :: linesJoin (([] : Str) :: rest)) := by
    rw [pyStrip, hdw, hJ, dropTrail_append_last _ hlast]
  have hWpref := dropTrail_pref pyWsChar ('\n' :: linesJoin (([] : Str) :: rest))
  cases hW : dropTrail pyWsChar ('\n' :: linesJoin (([] : Str) :: rest)) with
  | nil =>
    refine ⟨[], ?_, ?_⟩
    · rw [renderedContent, hps, hW]
      simp
    · intro i hi
      simp at hi
  | cons c W =>
    rw [hW] at hWpref
    have hc : c = '\n' := by
      have hh := pref_head hWpref
      rw [List.head?_cons] at hh
      exact (Option.some.inj hh).symm
    subst hc
    have hW2 : W <+: linesJoin (([] : Str) :: rest) := pref_cons_tail hWpref
    refine ⟨W ++ ['\n'], ?_, ?_⟩
    · rw [renderedContent, hps, hW]
      simp
    · refine noEarlyOcc_of_prefix_join hpne hpn ?_ ?_ hW2
      · intro l hl
        exact hln l (hgl.symm ▸ List.mem_cons_of_mem _ hl)
      · intro l hl
        exact hnp l (hgl.symm ▸ List.mem_cons_of_mem _ hl)

/-- In the backslash-free replacement world of `catalogRun`, a second run on
the first run's output returns it byte-identical, in both language variants:
the rendered content begins with the heading line that is the splice
pattern's start marker, and its remainder contains no early occurrence of
the end marker, so the second splice replaces the freshly spliced span by
itself. -/
theorem catalogRun_idem (reg : List (Str × Str))
    (hreg : ∀ q ∈ reg, ('\n' : Char) ∉ q.1)
    (aZ bZ cZ aE bE cE : Str)
    (h1z : noEarlyOcc sMzh aZ) (h2z : noEarlyOcc eMzh bZ)
    (h3z : findOcc sMzh (eMzh ++ cZ) = none)
    (h1e : noEarlyOcc sMen aE) (h2e : noEarlyOcc eMen bE)
    (h3e : findOcc sMen (eMen ++ cE) = none) :
    catalogRun (buildSkillsMap reg)
        (catalogRun (buildSkillsMap reg) (aZ ++ (sMzh ++ (bZ ++ (eMzh ++ cZ))))
            (aE ++ (sMen ++ (bE ++ (eMen ++ cE))))).1
        (catalogRun (buildSkillsMap reg) (aZ ++ (sMzh ++ (bZ ++ (eMzh ++ cZ))))
            (aE ++ (sMen ++ (bE ++ (eMen ++ cE))))).2 =
      catalogRun (buildSkillsMap reg) (aZ ++ (sMzh ++ (bZ ++ (eMzh ++ cZ))))
        (aE ++ (sMen ++ (bE ++ (eMen ++ cE)))) := by
  have hlnZ := genLines_no_nl reg Lang.zh hreg
  have hlnE := genLines_no_nl reg Lang.en hreg
  have hnpZ := @genLines_not_pref (buildSkillsMap reg) Lang.zh (str "## 目录结构")
    (by decide) (by decide)
  have hnpE := @genLines_not_pref (buildSkillsMap reg) Lang.en (str "## Directory Structure")
    (by decide) (by decide)
  obtain ⟨MZ, hMZ, hnoZ⟩ := @rendered_split (buildSkillsMap reg) Lang.zh
    (str "## 目录结构") (by decide) (by decide) hlnZ hnpZ
  obtain ⟨ME, hME, hnoE⟩ := @rendered_split (buildSkillsMap reg) Lang.en
    (str "## Directory Structure") (by decide) (by decide) hlnE hnpE
  have hMZs : renderedContent (buildSkillsMap reg) Lang.zh = sMzh ++ MZ := hMZ
  have hMEs : renderedContent (buildSkillsMap reg) Lang.en = sMen ++ ME := hME
  have hnoZ2 : noEarlyOcc eMzh MZ := hnoZ
  have hnoE2 : noEarlyOcc eMen ME := hnoE
  have hFz := @updateDoc_structured sMzh eMzh
    (renderedContent (buildSkillsMap reg) Lang.zh) (by decide) (by decide)
    aZ bZ cZ h1z h2z h3z
  have hFe := @updateDoc_structured sMen eMen
    (renderedContent (buildSkillsMap reg) Lang.en) (by decide) (by decide)
    aE bE cE h1e h2e h3e
  have keyZ := @updateDoc_structured sMzh eMzh
    (renderedContent (buildSkillsMap reg) Lang.zh) (by decide) (by decide)
    aZ MZ cZ h1z hnoZ2 h3z
  have keyE := @updateDoc_structured sMen eMen
    (renderedContent (buildSkillsMap reg) Lang.en) (by decide) (by decide)
    aE ME cE h1e hnoE2 h3e
  have hargZ : aZ ++ (renderedContent (buildSkillsMap reg) Lang.zh ++ (eMzh ++ cZ)) =
      aZ ++ (sMzh ++ (MZ ++ (eMzh ++ cZ))) := by
    rw [hMZs, List.append_assoc]
  have hargE : aE ++ (renderedContent (buildSkillsMap reg) Lang.en ++ (eMen ++ cE)) =
      aE ++ (sMen ++ (ME ++ (eMen ++ cE))) := by
    rw [hMEs, List.append_assoc]
  have hSz : updateDoc sMzh eMzh (renderedContent (buildSkillsMap reg) Lang.zh)
      (aZ ++ (renderedContent (buildSkillsMap reg) Lang.zh ++ (eMzh ++ cZ))) =
      aZ ++ (renderedContent (buildSkillsMap reg) Lang.zh ++ (eMzh ++ cZ)) := by
    rw [hargZ, keyZ]
    exact hargZ
  have hSe : updateDoc sMen eMen (renderedContent (buildSkillsMap reg) Lang.en)
      (aE ++ (renderedContent (buildSkillsMap reg) Lang.en ++ (eMen ++ cE))) =
      aE ++ (renderedContent (buildSkillsMap reg) Lang.en ++ (eMen ++ cE)) := by
    rw [hargE, keyE]
    exact hargE
  have hpair : catalogRun (buildSkillsMap reg) (aZ ++ (sMzh ++ (bZ ++ (eMzh ++ cZ))))
      (aE ++ (sMen ++ (bE ++ (eMen ++ cE)))) =
      (aZ ++ (renderedContent (buildSkillsMap reg) Lang.zh ++ (eMzh ++ cZ)),
       aE ++ (renderedContent (buildSkillsMap reg) Lang.en ++ (eMen ++ cE))) := by
    rw [catalogRun, hFz, hFe]
  rw [hpair, catalogRun]
  exact congrArg₂ Prod.mk hSz hSe

theorem c7_witness :
    ((([(str "zeta", str "")] : List (Str × Str)).map Prod.fst).Nodup) ∧
    ((buildSkillsMap [(str "zeta", str "")]).filter
        (fun p => decide
          (p.1 ∉ (genCats (buildSkillsMap [(str "zeta", str "")]) CATEGORIES []).2)) =
      (buildSkillsMap [(str "zeta", str "")]).filter
        (fun p => decide (p.1 ∉ allCatIds)) ∧
    genLines (buildSkillsMap [(str "zeta", str "")]) Lang.zh =
      [mdTitle Lang.zh, []] ++
        ((genCats (buildSkillsMap [(str "zeta", str "")]) CATEGORIES []).1.map
          (renderBlock Lang.zh)).join ++
        (if ((buildSkillsMap [(str "zeta", str "")]).filter
              (fun p => decide (p.1 ∉ allCatIds))).map (·.2) = []
         then []
         else [otherHd Lang.zh, [], hdrRow Lang.zh, sepRow] ++
           (((buildSkillsMap [(str "zeta", str "")]).filter
              (fun p => decide (p.1 ∉ allCatIds))).map (·.2)).map rowLine ++ [[]]) ∧
    (∀ p ∈ (buildSkillsMap [(str "zeta", str "")]).filter
        (fun p => decide (p.1 ∉ allCatIds)),
      ∀ b ∈ (genCats (buildSkillsMap [(str "zeta", str "")]) CATEGORIES []).1,
        p.2 ∉ b.2) ∧
    (∀ p ∈ (buildSkillsMap [(str "zeta", str "")]).filter
        (fun p => decide (p.1 ∉ allCatIds)),
      (((buildSkillsMap [(str "zeta", str "")]).filter
        (fun p => decide (p.1 ∉ allCatIds))).map (·.2)).count p.2 = 1) ∧
    ((buildSkillsMap [(str "zeta", str "")]).filter
        (fun p => decide (p.1 ∉ allCatIds)) = [] →
      otherHd Lang.zh ∉ genLines (buildSkillsMap [(str "zeta", str "")]) Lang.zh)) :=
  ⟨by decide, c7_other_section [(str "zeta", str "")] Lang.zh (by decide)⟩

theorem parseTemplateF_no_bs (g : Nat) :
    ∀ (fuel : Nat) {t : Str}, t.length < fuel → ('\\' : Char) ∉ t →
      parseTemplateF g fuel t = some (t.map TmplPiece.lit) := by
  intro fuel
  induction fuel with
  | zero =>
    intro t ht _
    exact absurd ht (by omega)
  | succ f ih =>
    intro t ht h
    cases t with
    | nil =>
      rw [parseTemplateF]
      rfl
    | cons c rest =>
      have hc : ¬ c = '\\' := fun hc => h (by rw [hc]; exact List.mem_cons_self _ _)
      rw [parseTemplateF, if_neg hc,
        ih (by rw [List.length_cons] at ht; omega) (fun hm => h (List.mem_cons_of_mem _ hm))]
      rfl

theorem parseTemplate_no_bs (g : Nat) {t : Str} (h : ('\\' : Char) ∉ t) :
    parseTemplate g t = some (t.map TmplPiece.lit) :=
  parseTemplateF_no_bs g (t.length + 1) (Nat.lt_succ_self _) h

theorem expandPieces_lits (sM b : Str) :
    ∀ t : Str, expandPieces sM b (t.map TmplPiece.lit) = t := by
  intro t
  induction t with
  | nil => rfl
  | cons c rest ih =>
    rw [List.map_cons]
    show [c] ++ expandPieces sM b (rest.map TmplPiece.lit) = c :: rest
    rw [ih]
    rfl

theorem subAll_cons_none {sM eM M : Str} {c : Char} {s' : Str} (hsM : sM ≠ [])
    (hp : sM <+: c :: s') (hf : findOcc eM ((c :: s').drop sM.length) = none) :
    subAll sM eM M (c :: s') = c :: subAll sM eM M s' := by
  have hm : sM.length - 1 + 1 = sM.length :=
    Nat.succ_pred_eq_of_pos (List.length_pos.mpr hsM)
  have hdrop : s'.drop (sM.length - 1) = (c :: s').drop sM.length := by
    conv_rhs => rw [← hm]
    rw [List.drop_succ_cons]
  rw [subAll, if_pos (List.isPrefixOf_iff_prefix.mpr hp), hdrop, hf]

theorem subAllTF_lits (sM eM M : Str) (hsM : sM ≠ []) :
    ∀ (fuel : Nat) {s : Str}, s.length < fuel →
      subAllTF sM eM (M.map TmplPiece.lit) fuel s = subAll sM eM M s := by
  intro fuel
  induction fuel with
  | zero =>
    intro s hs
    exact absurd hs (by omega)
  | succ f ih =>
    intro s hs
    cases s with
    | nil =>
      rw [subAllTF, subAll]
    | cons c s' =>
      rw [List.length_cons] at hs
      have hm : sM.length - 1 + 1 = sM.length :=
        Nat.succ_pred_eq_of_pos (List.length_pos.mpr hsM)
      have hdrop : s'.drop (sM.length - 1) = (c :: s').drop sM.length := by
        conv_rhs => rw [← hm]
        rw [List.drop_succ_cons]
      by_cases hp : sM <+: c :: s'
      · cases hf : findOcc eM ((c :: s').drop sM.length) with
        | none =>
          rw [subAll_cons_none hsM hp hf, subAllTF,
            if_pos (List.isPrefixOf_iff_prefix.mpr hp)]
          simp only [hdrop, hf]
          rw [ih (by omega)]
        | some k =>
          rw [subAll_cons_pos (by simp) hsM hp hf, subAllTF,
            if_pos (List.isPrefixOf_iff_prefix.mpr hp)]
          simp only [hdrop, hf]
          rw [expandPieces_lits,
            ih (by simp only [List.length_drop, List.length_cons]; omega)]
      · rw [subAll_cons_neg hp, subAllTF,
          if_neg (fun hb => hp (List.isPrefixOf_iff_prefix.mp hb)), ih (by omega)]

theorem subAllT_lits (sM eM M : Str) (hsM : sM ≠ []) (s : Str) :
    subAllT sM eM (M.map TmplPiece.lit) s = subAll sM eM M s :=
  subAllTF_lits sM eM M hsM (s.length + 1) (Nat.lt_succ_self _)

theorem updateDocT_no_bs {sM eM M : Str} (hsM : sM ≠ []) (hnb : ('\\' : Char) ∉ M)
    (doc : Str) : updateDocT sM eM M doc = some (updateDoc sM eM M doc) := by
  rw [updateDocT, updateDoc]
  by_cases h : hasMatch sM eM doc = true
  · rw [if_pos h, if_pos h, parseTemplate_no_bs 2 hnb, Option.map_some']
    exact congrArg some (subAllT_lits sM eM M hsM doc)
  · rw [if_neg h, if_neg h]

theorem catalogRunT_no_bs (skills : List (Str × SkillInfo))
    (hz : ('\\' : Char) ∉ renderedContent skills .zh)
    (he : ('\\' : Char) ∉ renderedContent skills .en) (dZ dE : Str) :
    catalogRunT skills dZ dE = some (catalogRun skills dZ dE) := by
  rw [catalogRunT, updateDocT_no_bs (by decide) hz, updateDocT_no_bs (by decide) he,
    catalogRun]
  rfl

/-- Claim C6 (amended): `re.sub` treats the rendered content as a
replacement template, so in general the span from the start marker to the
end marker is replaced by the template-expansion of that content, not by
the content itself (see `c6_counterexample`); when the rendered content
contains no backslash the expansion is the identity, and the splice then
replaces exactly the marker-delimited span with the rendered content and
leaves everything outside that span unchanged (shown for both language
variants); and when the start marker is missing from the Chinese document,
that document is returned byte-identical while the English document is
still processed independently. -/
theorem c6_splice_frame_faithful (skills : List (Str × SkillInfo))
    (aZ bZ cZ aE bE cE docZh docEn : Str)
    (hnbZ : ('\\' : Char) ∉ renderedContent skills .zh)
    (hnbE : ('\\' : Char) ∉ renderedContent skills .en)
    (h1z : noEarlyOcc sMzh aZ) (h2z : noEarlyOcc eMzh bZ)
    (h3z : findOcc sMzh (eMzh ++ cZ) = none)
    (h1e : noEarlyOcc sMen aE) (h2e : noEarlyOcc eMen bE)
    (h3e : findOcc sMen (eMen ++ cE) = none)
    (hmiss : hasMatch sMzh eMzh docZh = false) :
    updateDocT sMzh eMzh (renderedContent skills .zh)
        (aZ ++ (sMzh ++ (bZ ++ (eMzh ++ cZ)))) =
      some (aZ ++ (renderedContent skills .zh ++ (eMzh ++ cZ))) ∧
    updateDocT sMen eMen (renderedContent skills .en)
        (aE ++ (sMen ++ (bE ++ (eMen ++ cE)))) =
      some (aE ++ (renderedContent skills .en ++ (eMen ++ cE))) ∧
    catalogRunT skills docZh docEn =
      (updateDocT sMen eMen (renderedContent skills .en) docEn).map
        fun e => (docZh, e) := by
  refine ⟨?_, ?_, ?_⟩
  · rw [updateDocT_no_bs (by decide) hnbZ]
    exact congrArg some (@updateDoc_structured sMzh eMzh _ (by decide) (by decide)
      aZ bZ cZ h1z h2z h3z)
  · rw [updateDocT_no_bs (by decide) hnbE]
    exact congrArg some (@updateDoc_structured sMen eMen _ (by decide) (by decide)
      aE bE cE h1e h2e h3e)
  · rw [catalogRunT]
    rw [show updateDocT sMzh eMzh (renderedContent skills .zh) docZh = some docZh from by
      rw [updateDocT, if_neg (by simp [hmiss])]]

/-- Claim C6 counterexample: the original claim said the span is replaced
with the freshly rendered content itself; but `re.sub` template-processes
the replacement, so for a skill whose description contains the literal two
characters `\n` the program inserts a real newline instead of them, and the
updated document differs from the claimed one. -/
theorem c6_counterexample :
    updateDocT sMzh eMzh
        (renderedContent [(str "sk",
          { name := str "sk", description := str "x\\ny", triggers := [], effect := [] })]
          Lang.zh)
        ([] ++ (sMzh ++ ([] ++ (eMzh ++ [])))) ≠
      some ([] ++ (renderedContent [(str "sk",
          { name := str "sk", description := str "x\\ny", triggers := [], effect := [] })]
          Lang.zh ++ (eMzh ++ []))) := by
  decide

/-- Concrete instance of `c6_splice_frame_faithful`: backslash-free rendered
content (empty skills map), one structured document per variant, plus a
marker-less Chinese document that is left untouched. -/
theorem c6_witness :
    updateDocT sMzh eMzh (renderedContent [] .zh)
        (str "intro\n" ++ (sMzh ++ (str "OLD\n" ++ (eMzh ++ str "\ntail")))) =
      some (str "intro\n" ++ (renderedContent [] .zh ++ (eMzh ++ str "\ntail"))) ∧
    updateDocT sMen eMen (renderedContent [] .en)
        (str "intro\n" ++ (sMen ++ (str "OLD\n" ++ (eMen ++ str "\ntail")))) =
      some (str "intro\n" ++ (renderedContent [] .en ++ (eMen ++ str "\ntail"))) ∧
    catalogRunT [] (str "no marker here") (str "plain english doc") =
      (updateDocT sMen eMen (renderedContent [] .en) (str "plain english doc")).map
        (fun e => (str "no marker here", e)) :=
  c6_splice_frame_faithful [] (str "intro\n") (str "OLD\n") (str "\ntail")
    (str "intro\n") (str "OLD\n") (str "\ntail")
    (str "no marker here") (str "plain english doc")
    (by decide) (by decide) (by decide) (by decide) (by decide) (by decide)
    (by decide) (by decide) (by decide)

/-- Claim C1 (amended): with an unchanged registry, a second Catalog Builder
run on the documents produced by the first run returns them byte-identical
in both language variants whenever the rendered contents contain no
backslash (then `re.sub`'s replacement-template processing is the identity);
without that restriction the program is not idempotent, see
`c1_counterexample`. -/
theorem c1_catalog_idempotent_faithful (reg : List (Str × Str))
    (hreg : ∀ q ∈ reg, ('\n' : Char) ∉ q.1)
    (hnbZ : ('\\' : Char) ∉ renderedContent (buildSkillsMap reg) Lang.zh)
    (hnbE : ('\\' : Char) ∉ renderedContent (buildSkillsMap reg) Lang.en)
    (aZ bZ cZ aE bE cE : Str)
    (h1z : noEarlyOcc sMzh aZ) (h2z : noEarlyOcc eMzh bZ)
    (h3z : findOcc sMzh (eMzh ++ cZ) = none)
    (h1e : noEarlyOcc sMen aE) (h2e : noEarlyOcc eMen bE)
    (h3e : findOcc sMen (eMen ++ cE) = none) :
    (catalogRunT (buildSkillsMap reg) (aZ ++ (sMzh ++ (bZ ++ (eMzh ++ cZ))))
        (aE ++ (sMen ++ (bE ++ (eMen ++ cE))))).bind
      (fun q => catalogRunT (buildSkillsMap reg) q.1 q.2) =
    catalogRunT (buildSkillsMap reg) (aZ ++ (sMzh ++ (bZ ++ (eMzh ++ cZ))))
      (aE ++ (sMen ++ (bE ++ (eMen ++ cE)))) := by
  rw [catalogRunT_no_bs _ hnbZ hnbE]
  have hstep : ((some (catalogRun (buildSkillsMap reg)
        (aZ ++ (sMzh ++ (bZ ++ (eMzh ++ cZ))))
        (aE ++ (sMen ++ (bE ++ (eMen ++ cE)))))).bind
      (fun q => catalogRunT (buildSkillsMap reg) q.1 q.2)) =
      catalogRunT (buildSkillsMap reg)
        (catalogRun (buildSkillsMap reg) (aZ ++ (sMzh ++ (bZ ++ (eMzh ++ cZ))))
          (aE ++ (sMen ++ (bE ++ (eMen ++ cE))))).1
        (catalogRun (buildSkillsMap reg) (aZ ++ (sMzh ++ (bZ ++ (eMzh ++ cZ))))
          (aE ++ (sMen ++ (bE ++ (eMen ++ cE))))).2 := rfl
  rw [hstep, catalogRunT_no_bs _ hnbZ hnbE]
  exact congrArg some (catalogRun_idem reg hreg aZ bZ cZ aE bE cE
    h1z h2z h3z h1e h2e h3e)

/-- Claim C1 counterexample: the original claim asserted idempotence for
every registry; but a description carrying the literal text
`\n## 目录结构` reaches `re.sub` inside the replacement template, the
escape `\n` becomes a real newline, and the expanded replacement then
contains an early occurrence of the end marker, so the second run matches a
shorter span and the Chinese document grows: the outputs of the two runs
differ. -/
theorem c1_counterexample :
    (catalogRunT (buildSkillsMap
        [(str "myskill", str "---\ndescription: x\\n## 目录结构\n---")])
        ([] ++ (sMzh ++ ([] ++ (eMzh ++ []))))
        ([] ++ (sMen ++ ([] ++ (eMen ++ []))))).bind
      (fun q => catalogRunT (buildSkillsMap
        [(str "myskill", str "---\ndescription: x\\n## 目录结构\n---")]) q.1 q.2) ≠
    catalogRunT (buildSkillsMap
        [(str "myskill", str "---\ndescription: x\\n## 目录结构\n---")])
      ([] ++ (sMzh ++ ([] ++ (eMzh ++ []))))
      ([] ++ (sMen ++ ([] ++ (eMen ++ [])))) := by
  decide

theorem c1_witness :
    ((∀ q ∈ ([] : List (Str × Str)), ('\n' : Char) ∉ q.1) ∧
      ('\\' : Char) ∉ renderedContent (buildSkillsMap []) Lang.zh ∧
      ('\\' : Char) ∉ renderedContent (buildSkillsMap []) Lang.en ∧
      noEarlyOcc sMzh [] ∧ noEarlyOcc eMzh [] ∧ findOcc sMzh (eMzh ++ []) = none ∧
      noEarlyOcc sMen [] ∧ noEarlyOcc eMen [] ∧ findOcc sMen (eMen ++ []) = none) ∧
    (catalogRunT (buildSkillsMap []) ([] ++ (sMzh ++ ([] ++ (eMzh ++ []))))
        ([] ++ (sMen ++ ([] ++ (eMen ++ []))))).bind
      (fun q => catalogRunT (buildSkillsMap []) q.1 q.2) =
    catalogRunT (buildSkillsMap []) ([] ++ (sMzh ++ ([] ++ (eMzh ++ []))))
      ([] ++ (sMen ++ ([] ++ (eMen ++ [])))) :=
  ⟨⟨by decide, by decide, by decide, by decide, by decide, by decide, by decide,
      by decide, by decide⟩,
    c1_catalog_idempotent_faithful [] (by decide) (by decide) (by decide)
      [] [] [] [] [] []
      (by decide) (by decide) (by decide) (by decide) (by decide) (by decide)⟩
